import Mathlib

/-!
# UnitsNetwork-interaction: a shallow embedding of `main.go`

The development follows the source file function by function.

* Machine integers (`int`, `int64`) are mathematical integers wrapped to
  64 bits where the source computes with them.
* A `float64` is a finite binary64 value, given by sign, integer mantissa
  and binary exponent; its exact value is a rational number.
* A `*big.Float` is a precision together with an exact rational value; every
  operation rounds its exact result to the precision of the receiver, to nearest,
  ties to even, as `math/big` does.
* Remote calls, key generation and the random source are operations of an
  environment that threads a state of an arbitrary type.
-/

namespace UnitsNetwork

/-! ## Definitions -/

/-- Constant `minGasPrice = 900000`. -/
def minGasPrice : Int := 900000

/-- Constant `maxGasPrice = 1500000`. -/
def maxGasPrice : Int := 1500000

/-- Constant `maxRetries = 5`. -/
def maxRetries : Int := 5

/-- Constant `weiPerEth = 1e18`. -/
def weiPerEth : ℚ := 10 ^ 18

/-- Wrap-around of a mathematical integer to `int64` in two-complement
arithmetic; `int` is the same type on the 64-bit targets of the Go toolchain. -/
def wrapInt64 (x : Int) : Int := (x + 2 ^ 63) % 2 ^ 64 - 2 ^ 63

/-- Finite binary64 value `(-1)^neg * mant * 2^exp`. -/
structure Float64 where
  neg : Bool
  mant : Nat
  exp : Int
  deriving DecidableEq

/-- Representable as a float64: 53-bit mantissa, exponent in range. -/
def Float64.Valid (x : Float64) : Prop := x.mant < 2 ^ 53 ∧ -1074 ≤ x.exp ∧ x.exp ≤ 971

/-- Absolute value as an exact rational. -/
def Float64.magnitude (x : Float64) : ℚ := (x.mant : ℚ) * (2 : ℚ) ^ x.exp

/-- Exact rational value. -/
def Float64.toRat (x : Float64) : ℚ := if x.neg then -x.magnitude else x.magnitude

/-- Nearest integer, ties to the even neighbour. -/
def roundHalfEven (q : ℚ) : Int :=
  let f := ⌊q⌋
  let r := q - f
  if r < 1 / 2 then f
  else if 1 / 2 < r then f + 1
  else if f % 2 = 0 then f else f + 1

/-- Result of `strconv.FormatFloat` in format `f` with 18 digits on a finite
value: an optional minus sign and the decimal digits, of which the last 18
follow the point. `digits` is the integer that the digit string spells
without its point. -/
structure DecimalString where
  neg : Bool
  digits : Nat
  deriving DecidableEq

/-- Model of `strconv.FormatFloat(amount, f, 18, 64)`: the exact value rounded
to 18 fractional decimal digits, to nearest, ties to even. -/
def FormatFloat (amount : Float64) : DecimalString :=
  ⟨amount.neg, (roundHalfEven (amount.magnitude * 10 ^ 18)).toNat⟩

/-- Rounding of a positive rational to `prec` mantissa bits, to nearest, ties
to even: the mantissa is scaled into `[2^(prec-1), 2^prec)` and rounded. -/
def roundPos (prec : Nat) (q : ℚ) : ℚ :=
  let e : Int := Int.log 2 q - ((prec : Int) - 1)
  (roundHalfEven (q / (2 : ℚ) ^ e) : ℚ) * (2 : ℚ) ^ e

/-- Rounding of `(*big.Float).round` to `prec` bits in the default mode
`ToNearestEven`, on sign and magnitude. -/
def roundToPrec (prec : Nat) (q : ℚ) : ℚ :=
  if q = 0 then 0
  else if 0 < q then roundPos prec q
  else -roundPos prec (-q)

/-- A finite `*big.Float`: precision in bits and exact value. -/
structure BigFloat where
  prec : Nat
  val : ℚ
  deriving DecidableEq

/-- Model of `new(big.Float).SetString(s)`: the receiver has precision 0, so
the precision becomes 64; the digits are scanned as an exact integer mantissa
and divided by `5^18` (and `2^18`) with one rounding to 64 bits. -/
def BigFloat.SetString (s : DecimalString) : BigFloat :=
  let m : ℚ := (s.digits : ℚ) / 10 ^ 18
  ⟨64, roundToPrec 64 (if s.neg then -m else m)⟩

/-- Model of `big.NewFloat(x)`: precision 53, exact value of `x`. -/
def BigFloat.NewFloat (x : ℚ) : BigFloat := ⟨53, x⟩

/-- Model of `new(big.Float).Mul(x, y)`: the receiver has precision 0, so the
result takes the larger operand precision; the exact product is rounded once. -/
def BigFloat.Mul (x y : BigFloat) : BigFloat :=
  let p := max x.prec y.prec
  ⟨p, roundToPrec p (x.val * y.val)⟩

/-- Model of `(*big.Float).Int(nil)`: truncation toward zero. -/
def BigFloat.Int (x : BigFloat) : Int :=
  if 0 ≤ x.val then ⌊x.val⌋ else ⌈x.val⌉

/-- Function `ethToWei(amount)`. -/
def ethToWei (amount : Float64) : Int :=
  let amountStr := FormatFloat amount
  let amountWei := BigFloat.SetString amountStr
  let wei := BigFloat.Mul amountWei (BigFloat.NewFloat weiPerEth)
  BigFloat.Int wei

/-- The float64 nearest to the literal `0.001`: `0x3F50624DD2F1A9FC`. -/
def f64_0_001 : Float64 := ⟨false, 4611686018427388, -62⟩

/-- The float64 nearest to the literal `0.000001`: `0x3EB0C6F7A0B5ED8D`. -/
def f64_0_000001 : Float64 := ⟨false, 4722366482869645, -72⟩

/-- Value of `ethToWei` on a non-negative amount as a function of its exact value. -/
def weiOfRat (q : ℚ) : Int :=
  ⌊roundToPrec 64 (roundToPrec 64 (((roundHalfEven (q * 10 ^ 18)).toNat : ℚ) / 10 ^ 18) * 10 ^ 18)⌋

/-- A Go string is a sequence of bytes; `len` counts bytes and slicing cuts
at byte offsets. -/
abbrev GoString := List (Fin 256)

/-- The slice expression `s[lo:hi]`; `none` is the run-time panic for
indices out of range. -/
def GoString.slice (s : GoString) (lo hi : Int) : Option GoString :=
  if 0 ≤ lo ∧ lo ≤ hi ∧ hi ≤ (s.length : Int) then
    some ((s.drop lo.toNat).take (hi - lo).toNat)
  else none

/-- The three dot bytes that `shortenAddress` inserts. -/
def dots : GoString := [46, 46, 46]

/-- Function `shortenAddress(address)`; the `Sprintf` call concatenates `a`,
three dots and `b`. -/
def shortenAddress (address : GoString) : Option GoString :=
  if (address.length : Int) < 10 then some address
  else
    match GoString.slice address 0 6,
      GoString.slice address ((address.length : Int) - 4) (address.length : Int) with
    | some a, some b => some (a ++ dots ++ b)
    | _, _ => none

/-- What `retry` does besides running the operation. -/
inductive RetryStep where
  | invoke
  | sleep (d : Int)
  deriving DecidableEq

/-- The loop of `retry` with `n` iterations left; `err` is the named result,
`nil` (`none`) at entry. The operation `f` runs on the environment state and
returns its error, `none` for `nil`. -/
def retryFrom {σ ε : Type} (delay : Int) (f : σ → Option ε × σ) :
    Nat → Option ε → σ → Option ε × σ × List RetryStep
  | 0, err, s => (err, s, [])
  | n + 1, _, s =>
    match f s with
    | (some e, s1) =>
      let r := retryFrom delay f n (some e) s1
      (r.1, r.2.1, RetryStep.invoke :: RetryStep.sleep delay :: r.2.2)
    | (none, s1) => (none, s1, [RetryStep.invoke])

/-- Function `retry(attempts, delay, f)`. -/
def retry {σ ε : Type} (attempts : Int) (delay : Int) (f : σ → Option ε × σ) (s : σ) :
    Option ε × σ × List RetryStep :=
  retryFrom delay f attempts.toNat none s

/-- State of the environment after `j` invocations of `f` from `s`. -/
def stateAfter {σ ε : Type} (f : σ → Option ε × σ) (s : σ) : Nat → σ
  | 0 => s
  | j + 1 => (f (stateAfter f s j)).2

/-- Error returned by invocation number `j` (from 0) of `f` from `s`. -/
def resultAt {σ ε : Type} (f : σ → Option ε × σ) (s : σ) (j : Nat) : Option ε :=
  (f (stateAfter f s j)).1

/-- Steps of `k` failed attempts: each is an invocation followed by a sleep. -/
def failedAttempts (delay : Int) : Nat → List RetryStep
  | 0 => []
  | k + 1 => RetryStep.invoke :: RetryStep.sleep delay :: failedAttempts delay k

/-- Durations of the sleeps among the steps, in order. -/
def sleepsOf (t : List RetryStep) : List Int :=
  t.filterMap (fun e => match e with
    | RetryStep.sleep d => some d
    | RetryStep.invoke => none)

/-- The `int64` range. -/
def InInt64 (x : Int) : Prop := -2 ^ 63 ≤ x ∧ x < 2 ^ 63

/-- An account address (`common.Address`), as a number. -/
abbrev Address := Nat

/-- A non-nil Go `error` value. -/
abbrev GoError := Nat

/-- Constant `retryDelay = 5 * time.Second`, in nanoseconds. -/
def retryDelay : Int := 5 * 1000000000

/-- Constant `gasLimit = 21000`. -/
def gasLimit : Nat := 21000

/-- The fields of `*bind.TransactOpts` that `createWallet` sets. -/
structure Wallet where
  From : Address
  Nonce : Int
  Value : Int
  GasLimit : Nat
  GasPrice : Int
  deriving DecidableEq

/-- Arguments of `types.NewTransaction`. -/
structure Transaction where
  nonce : Nat
  recipient : Address
  amount : Int
  gasLimit : Nat
  gasPrice : Int
  deriving DecidableEq

/-- A signed transaction with its hash. -/
structure SignedTx where
  tx : Transaction
  hash : Nat
  deriving DecidableEq

/-- Lines the program prints. The success line carries the values that
`main` formats: sender, receiver, amount in wei, hash and the count of the
wallet. -/
inductive Line where
  | insufficientBalance (sender : Address)
  | signingFailed
  | sendFailed
  | success (sender receiver : Address) (amount : Int) (txHash : Nat) (count : Int)
  | nonceRetry
  | nonceGiveUp
  | balanceRetry
  | balanceGiveUp
  deriving DecidableEq

/-- Observable steps of a run, in program order. `checkBalance i w` marks the
call of `checkBalanceWithRetry` in iteration `i` of the loop of `main`, made
for `wallets[w]`; `retrySleep` is a `time.Sleep` of the retry helpers and
`wait` the `time.Sleep(waitTime)` that ends the loop body. -/
inductive Event where
  | checkBalance (i walletIndex : Nat)
  | BalanceAt (a : Address)
  | PendingNonceAt (a : Address)
  | SuggestGasPrice
  | Sign (a : Address)
  | SendTransaction (tx : SignedTx)
  | retrySleep (d : Int)
  | wait (d : Int)
  | print (l : Line)
  deriving DecidableEq

/-- The remote endpoint, the signer, key generation and the random source.
Each operation reads and advances an environment state of type `σ`.
`none` is an error for the queries and for `Signer`; `SendTransaction`
returns its error. `GenerateKey` yields the address of a fresh key:
`crypto.GenerateKey` fails only when the entropy source cannot be read, which
the environment is taken never to do. `randomAmount` is the float64 value of
`min + rand.Float64()*(max-min)` in `randomEth`, and `Int63n n` the value that
`rand.Int63n(n)` returns for `n > 0`. -/
structure World (σ : Type) where
  BalanceAt : Address → σ → Option Int × σ
  PendingNonceAt : Address → σ → Option Nat × σ
  SuggestGasPrice : σ → Option Int × σ
  SendTransaction : SignedTx → σ → Option GoError × σ
  Signer : Wallet → Transaction → σ → Option SignedTx × σ
  GenerateKey : σ → Address × σ
  randomAmount : σ → Float64 × σ
  Int63n : Int → σ → Int × σ
  HexToECDSA : GoString → Option Address

/-- The loop of `nonceAtWithRetry` with `n` iterations left. -/
def nonceAtLoop {σ : Type} (W : World σ) (address : Address) :
    Nat → σ → Nat × σ × List Event
  | 0, s => (0, s, [Event.print Line.nonceGiveUp])
  | n + 1, s =>
    match W.PendingNonceAt address s with
    | (some nonce, s1) => (nonce, s1, [Event.PendingNonceAt address])
    | (none, s1) =>
      let r := nonceAtLoop W address n s1
      (r.1, r.2.1, Event.PendingNonceAt address :: Event.print Line.nonceRetry ::
        Event.retrySleep retryDelay :: r.2.2)

/-- Function `nonceAtWithRetry(client, address, retries)`. -/
def nonceAtWithRetry {σ : Type} (W : World σ) (address : Address) (retries : Int) (s : σ) :
    Nat × σ × List Event :=
  nonceAtLoop W address retries.toNat s

/-- The loop of `checkBalanceWithRetry` with `n` iterations left. -/
def checkBalanceLoop {σ : Type} (W : World σ) (address : Address) :
    Nat → σ → Int × σ × List Event
  | 0, s => (0, s, [Event.print Line.balanceGiveUp])
  | n + 1, s =>
    match W.BalanceAt address s with
    | (some balance, s1) => (balance, s1, [Event.BalanceAt address])
    | (none, s1) =>
      let r := checkBalanceLoop W address n s1
      (r.1, r.2.1, Event.BalanceAt address :: Event.print Line.balanceRetry ::
        Event.retrySleep retryDelay :: r.2.2)

/-- Function `checkBalanceWithRetry(client, address, retries)`. -/
def checkBalanceWithRetry {σ : Type} (W : World σ) (address : Address) (retries : Int) (s : σ) :
    Int × σ × List Event :=
  checkBalanceLoop W address retries.toNat s

/-- Function `randomEth(minEthToSend, maxEthToSend)`: the draw comes from the
environment and is converted by `ethToWei`. -/
def randomEth {σ : Type} (W : World σ) (s : σ) : Int × σ :=
  let r := W.randomAmount s
  (ethToWei r.1, r.2)

/-- Function `randomGasPrice(min, max)`. `Int63n n s` is the value that
`rand.Int63n(n)` returns in state `s`; the call panics for `n <= 0` (`none`).
Sums and differences are `int64`. -/
def randomGasPrice {σ : Type} (Int63n : Int → σ → Int × σ) (min max : Int) (s : σ) :
    Option Int × σ :=
  let n := wrapInt64 (wrapInt64 (max - min) + 1)
  if n ≤ 0 then (none, s)
  else
    let d := Int63n n s
    (some (wrapInt64 (min + d.1)), d.2)

/-- Result of `createWallet`: `log.Fatalf` ends the process (`fatal`). -/
inductive Startup where
  | fatal
  | ok (w : Wallet)
  deriving DecidableEq

/-- Function `createWallet(client, privateKeyHex)`. `HexToECDSA` parses the key and
gives the address derived from it. `bind.NewKeyedTransactorWithChainID` fails
only for a nil chain id, and the chain id here is `big.NewInt(chainID)`. -/
def createWallet {σ : Type} (W : World σ) (privateKeyHex : GoString) (s : σ) :
    Startup × σ × List Event :=
  match W.HexToECDSA privateKeyHex with
  | none => (Startup.fatal, s, [])
  | some fromAddress =>
    let n := nonceAtWithRetry W fromAddress maxRetries s
    match W.SuggestGasPrice n.2.1 with
    | (none, s1) => (Startup.fatal, s1, n.2.2 ++ [Event.SuggestGasPrice])
    | (some gasPrice, s1) =>
      (Startup.ok ⟨fromAddress, wrapInt64 (n.1 : Int), 0, gasLimit, gasPrice⟩, s1,
        n.2.2 ++ [Event.SuggestGasPrice])

/-- State of the loop of `main`: environment, steps so far, the slice
`transactionCounts`, and whether a run-time panic has ended the run. -/
structure LoopState (σ : Type) where
  env : σ
  trace : List Event
  transactionCounts : List Int
  panicked : Bool

/-- Steps of `retry` around `client.SendTransaction` as events. -/
def sendEvent (signedTx : SignedTx) : RetryStep → Event
  | RetryStep.invoke => Event.SendTransaction signedTx
  | RetryStep.sleep d => Event.retrySleep d

/-- The body of the loop of `main` for iteration `i` (lines 65 to 117).
Indexing a slice out of range, and so `i % len(wallets)` for no wallets,
is a run-time panic. -/
def slot {σ : Type} (W : World σ) (wallets : List Wallet) (waitTime : Int) (i : Nat)
    (st : LoopState σ) : LoopState σ :=
  if st.panicked then st
  else
    let walletIndex := i % wallets.length
    match wallets[walletIndex]? with
    | none => { st with panicked := true }
    | some wallet =>
      let senderAddress := wallet.From
      let b := checkBalanceWithRetry W senderAddress maxRetries st.env
      let t1 := st.trace ++ Event.checkBalance i walletIndex :: b.2.2
      if b.1 < ethToWei f64_0_001 then
        { st with env := b.2.1,
                  trace := t1 ++ [Event.print (Line.insufficientBalance senderAddress)] }
      else
        let r := W.GenerateKey b.2.1
        let a := randomEth W r.2
        let g := randomGasPrice W.Int63n minGasPrice maxGasPrice a.2
        match g.1 with
        | none => { st with env := g.2, trace := t1, panicked := true }
        | some gasPrice =>
          let n := nonceAtWithRetry W senderAddress maxRetries g.2
          let tx : Transaction := ⟨n.1, r.1, a.1, gasLimit, gasPrice⟩
          let sg := W.Signer wallet tx n.2.1
          let t2 := t1 ++ n.2.2 ++ [Event.Sign senderAddress]
          match sg.1 with
          | none =>
            { st with env := sg.2, trace := t2 ++ [Event.print Line.signingFailed] }
          | some signedTx =>
            let snd := retry maxRetries retryDelay (W.SendTransaction signedTx) sg.2
            let t3 := t2 ++ snd.2.2.map (sendEvent signedTx)
            match snd.1 with
            | some _ =>
              { st with env := snd.2.1, trace := t3 ++ [Event.print Line.sendFailed] }
            | none =>
              match st.transactionCounts[walletIndex]? with
              | none => { st with env := snd.2.1, trace := t3, panicked := true }
              | some c =>
                { env := snd.2.1,
                  trace := t3 ++ [Event.print (Line.success senderAddress r.1 a.1
                    signedTx.hash (wrapInt64 (c + 1))), Event.wait waitTime],
                  transactionCounts := st.transactionCounts.set walletIndex (wrapInt64 (c + 1)),
                  panicked := false }

/-- The first `k` iterations of the loop of `main`. -/
def runSlots {σ : Type} (W : World σ) (wallets : List Wallet) (waitTime : Int) (k : Nat)
    (st : LoopState σ) : LoopState σ :=
  (List.range k).foldl (fun acc i => slot W wallets waitTime i acc) st

/-- The loop of `main` (lines 56 and 63 to 118) on the wallets created at
start-up: `transactionCounts` starts at zero for every wallet and
`totalTransactions` is an `int` product. -/
def mainLoop {σ : Type} (W : World σ) (wallets : List Wallet) (numTransactions waitTime : Int)
    (s : σ) : LoopState σ :=
  let totalTransactions := wrapInt64 (numTransactions * (wallets.length : Int))
  runSlots W wallets waitTime totalTransactions.toNat
    ⟨s, [], List.replicate wallets.length 0, false⟩

/-- The `time.Sleep(waitTime)` steps. -/
def Event.isWait : Event → Bool
  | Event.wait _ => true
  | _ => false

/-- The success lines. -/
def Event.isReport : Event → Bool
  | Event.print (Line.success _ _ _ _ _) => true
  | _ => false

/-- The insufficient-balance lines. -/
def Event.isSkipLog : Event → Bool
  | Event.print (Line.insufficientBalance _) => true
  | _ => false

/-- The nonce queries. -/
def Event.isNonceQuery : Event → Bool
  | Event.PendingNonceAt _ => true
  | _ => false

/-- The signing calls. -/
def Event.isSign : Event → Bool
  | Event.Sign _ => true
  | _ => false

/-- The broadcast calls. -/
def Event.isBroadcast : Event → Bool
  | Event.SendTransaction _ => true
  | _ => false

/-- Steps of `checkBalanceWithRetry`. -/
def Event.ofBalance : Event → Bool
  | Event.BalanceAt _ => true
  | Event.retrySleep _ => true
  | Event.print Line.balanceRetry => true
  | Event.print Line.balanceGiveUp => true
  | _ => false

/-- Steps of `nonceAtWithRetry`. -/
def Event.ofNonce : Event → Bool
  | Event.PendingNonceAt _ => true
  | Event.retrySleep _ => true
  | Event.print Line.nonceRetry => true
  | Event.print Line.nonceGiveUp => true
  | _ => false

/-- Steps of `retry` around `SendTransaction`. -/
def Event.ofSend : Event → Bool
  | Event.SendTransaction _ => true
  | Event.retrySleep _ => true
  | _ => false

/-- Steps made inside a slot between the balance check and the line or
wait that ends it. -/
def Event.isInner (e : Event) : Bool :=
  e.ofBalance || e.ofNonce || e.ofSend || e.isSign

/-- Iterations and wallet indices of the balance checks, in order. -/
def slotsOf (t : List Event) : List (Nat × Nat) :=
  t.filterMap (fun e => match e with
    | Event.checkBalance i w => some (i, w)
    | _ => none)

/-- Counts printed by the success lines, in order. -/
def reportCounts (t : List Event) : List Int :=
  t.filterMap (fun e => match e with
    | Event.print (Line.success _ _ _ _ c) => some c
    | _ => none)

/-- The ways a slot ends: one of the three skip lines, or the success line
followed by the wait. -/
def IsSlotTail (waitTime : Int) (tail : List Event) : Prop :=
  (∃ a, tail = [Event.print (Line.insufficientBalance a)]) ∨
  tail = [Event.print Line.signingFailed] ∨
  tail = [Event.print Line.sendFailed] ∨
  ∃ a r amt h c, tail = [Event.print (Line.success a r amt h c), Event.wait waitTime]

/-- Slots with their wallet index and the counts of the success lines, in
program order. -/
def marks (t : List Event) : List (Sum (Nat × Nat) Int) :=
  t.filterMap (fun e => match e with
    | Event.checkBalance i w => some (Sum.inl (i, w))
    | Event.print (Line.success _ _ _ _ c) => some (Sum.inr c)
    | _ => none)

/-- Steps of a slot that stops at the balance check. -/
def Event.isQuiet : Event → Bool
  | Event.checkBalance _ _ => true
  | Event.print (Line.insufficientBalance _) => true
  | e => e.ofBalance

/-- Marks of a run of `k` slots that all succeed: slot `i` checks wallet
`i % w` and prints the count `i / w + 1`. -/
def successMarks (w k : Nat) : List (Sum (Nat × Nat) Int) :=
  (List.range k).flatMap (fun i => [Sum.inl (i, i % w), Sum.inr (((i / w : Nat) : Int) + 1)])

/-- Success lines (`none`) and inter-transaction waits with their duration
(`some d`) of a trace, in program order. -/
def reportWaitSteps (t : List Event) : List (Option Int) :=
  t.filterMap (fun e => match e with
    | Event.print (Line.success _ _ _ _ _) => some none
    | Event.wait d => some (some d)
    | _ => none)

/-- The steps of `r` success lines each followed at once by a wait of `d`. -/
def successThenWait (d : Int) : Nat → List (Option Int)
  | 0 => []
  | r + 1 => successThenWait d r ++ [none, some d]

/-- Value of `waitTime` at line 53 of `main`:
`time.Duration(waitTimeSeconds) * time.Second`, an `int64` count of
nanoseconds. -/
def waitTimeOfSeconds (waitTimeSeconds : Int) : Int :=
  wrapInt64 (wrapInt64 waitTimeSeconds * 1000000000)

/-- The part of `main` that follows the creation of the wallets: the
conversion of the interval at line 53 and the loop. -/
def mainBody {σ : Type} (W : World σ) (wallets : List Wallet)
    (numTransactions waitTimeSeconds : Int) (s : σ) : LoopState σ :=
  mainLoop W wallets numTransactions (waitTimeOfSeconds waitTimeSeconds) s

/-- The balance-check markers. -/
def Event.isSlot : Event → Bool
  | Event.checkBalance _ _ => true
  | _ => false

/-- The account that a step names: the account queried, the signer, or the
sender printed in a line. -/
def Event.addressOf : Event → Option Address
  | Event.BalanceAt a => some a
  | Event.PendingNonceAt a => some a
  | Event.Sign a => some a
  | Event.print (Line.insufficientBalance a) => some a
  | Event.print (Line.success a _ _ _ _) => some a
  | _ => none

/-- A step inside a slot that names no account other than `a`. -/
def Event.within (a : Address) (e : Event) : Prop :=
  e.isSlot = false ∧ ∀ b, e.addressOf = some b → b = a

/-- One step of the right-to-left split of a trace at the balance-check
markers: the first component collects the steps since the last marker. -/
def segStep (e : Event) (acc : List Event × List (Nat × List Event)) :
    List Event × List (Nat × List Event) :=
  match e with
  | Event.checkBalance i _ => ([], (i, acc.1) :: acc.2)
  | _ => (e :: acc.1, acc.2)

/-- The slots of a trace: for every balance-check marker its iteration and
the steps that follow it up to the next marker. -/
def slotSegments (t : List Event) : List (Nat × List Event) :=
  (t.foldr segStep ([], [])).2

/-- Value of a hexadecimal digit. -/
def hexDigit (b : Fin 256) : Option Nat :=
  if 48 ≤ b.val ∧ b.val ≤ 57 then some (b.val - 48)
  else if 97 ≤ b.val ∧ b.val ≤ 102 then some (b.val - 87)
  else if 65 ≤ b.val ∧ b.val ≤ 70 then some (b.val - 55)
  else none

/-- The number that a string of hexadecimal digits spells. -/
def hexValue (k : GoString) : Option Nat :=
  k.foldl (fun acc b => match acc, hexDigit b with
    | some n, some d => some (16 * n + d)
    | _, _ => none) (some 0)

/-- Order of the group of the curve secp256k1. -/
def secp256k1N : Nat :=
  0xFFFFFFFFFFFFFFFFFFFFFFFFFFFFFFFEBAAEDCE6AF48A03BBFD25E8CD0364141

/-- Key parsing of the sample environments, as `crypto.HexToECDSA` accepts
keys: exactly 64 hexadecimal digits that spell a scalar from 1 to the group
order minus 1. The scalar stands for the address derived from the key. -/
def sampleHexToECDSA (k : GoString) : Option Address :=
  if k.length = 64 then
    match hexValue k with
    | some d => if 0 < d ∧ d < secp256k1N then some d else none
    | none => none
  else none

/-- A well-formed private key: 64 times the digit 1. -/
def sampleKey : GoString := List.replicate 64 49

/-- The address that stands for `sampleKey`. -/
def sampleAddress : Address :=
  0x1111111111111111111111111111111111111111111111111111111111111111

/-- A second wallet, of another account. -/
def secondWallet : Wallet := ⟨3, 0, 0, gasLimit, 1000000⟩

/-- A wallet as `createWallet` returns it. -/
def sampleWallet : Wallet := ⟨1, 0, 0, gasLimit, 1000000⟩

/-- An endpoint that answers no call and a signer that refuses. -/
def offline : World Unit where
  BalanceAt := fun _ s => (none, s)
  PendingNonceAt := fun _ s => (none, s)
  SuggestGasPrice := fun s => (none, s)
  SendTransaction := fun _ s => (some 1, s)
  Signer := fun _ _ s => (none, s)
  GenerateKey := fun s => (2, s)
  randomAmount := fun s => (f64_0_000001, s)
  Int63n := fun _ s => (0, s)
  HexToECDSA := sampleHexToECDSA

/-- An endpoint on which every call succeeds at once; every account holds
`10^16` wei (0.01 display unit). -/
def online : World Unit where
  BalanceAt := fun _ s => (some 10000000000000000, s)
  PendingNonceAt := fun _ s => (some 0, s)
  SuggestGasPrice := fun s => (some 1000000, s)
  SendTransaction := fun _ s => (none, s)
  Signer := fun _ tx s => (some ⟨tx, 7⟩, s)
  GenerateKey := fun s => (2, s)
  randomAmount := fun s => (f64_0_000001, s)
  Int63n := fun _ s => (0, s)
  HexToECDSA := sampleHexToECDSA

/-- An endpoint whose gas-price suggestion fails on the first call only; the
state counts the calls of `SuggestGasPrice`. -/
def flakyGasPrice : World Nat where
  BalanceAt := fun _ s => (some 10000000000000000, s)
  PendingNonceAt := fun _ s => (some 0, s)
  SuggestGasPrice := fun s => (if s = 0 then none else some 1000000, s + 1)
  SendTransaction := fun _ s => (none, s)
  Signer := fun _ tx s => (some ⟨tx, 7⟩, s)
  GenerateKey := fun s => (2, s)
  randomAmount := fun s => (f64_0_000001, s)
  Int63n := fun _ s => (0, s)
  HexToECDSA := sampleHexToECDSA

/-- The gas-price queries. -/
def Event.isGasPriceQuery : Event → Bool
  | Event.SuggestGasPrice => true
  | _ => false

/-- Operation that fails twice and then succeeds; the state counts the calls. -/
def failsTwice : Nat → Option GoError × Nat :=
  fun s => (if s < 2 then some 9 else none, s + 1)

/-- Operation that fails on every call, with the call number as its error. -/
def alwaysFails : Nat → Option GoError × Nat :=
  fun s => (some s, s + 1)

/-! ## Lemmas -/

theorem roundHalfEven_ge_floor (q : ℚ) : ⌊q⌋ ≤ roundHalfEven q := by
  unfold roundHalfEven
  simp only
  split_ifs <;> omega

theorem roundHalfEven_le_floor_succ (q : ℚ) : roundHalfEven q ≤ ⌊q⌋ + 1 := by
  unfold roundHalfEven
  simp only
  split_ifs <;> omega

theorem roundHalfEven_intCast (n : Int) : roundHalfEven (n : ℚ) = n := by
  unfold roundHalfEven
  simp

theorem roundHalfEven_mono {x y : ℚ} (h : x ≤ y) : roundHalfEven x ≤ roundHalfEven y := by
  rcases lt_or_eq_of_le (Int.floor_mono h) with hlt | heq
  · calc roundHalfEven x ≤ ⌊x⌋ + 1 := roundHalfEven_le_floor_succ x
      _ ≤ ⌊y⌋ := hlt
      _ ≤ roundHalfEven y := roundHalfEven_ge_floor y
  · unfold roundHalfEven
    simp only
    rw [heq]
    have hxy : x - (⌊y⌋ : ℚ) ≤ y - (⌊y⌋ : ℚ) := by linarith
    split_ifs <;> first | omega | (exfalso; linarith)

/-- The scaled mantissa lies in `[2^(prec-1), 2^prec)`. -/
theorem scaled_bounds (prec : Nat) {q : ℚ} (hq : 0 < q) :
    (2 : ℚ) ^ ((prec : Int) - 1) ≤ q / (2 : ℚ) ^ (Int.log 2 q - ((prec : Int) - 1)) ∧
    q / (2 : ℚ) ^ (Int.log 2 q - ((prec : Int) - 1)) < (2 : ℚ) ^ ((prec : Int) - 1 + 1) := by
  have h2 : (0 : ℚ) < 2 := by norm_num
  have hpos : (0 : ℚ) < (2 : ℚ) ^ (Int.log 2 q - ((prec : Int) - 1)) := zpow_pos h2 _
  have hlo : ((2 : ℕ) : ℚ) ^ Int.log 2 q ≤ q := Int.zpow_log_le_self (by norm_num) hq
  have hhi : q < ((2 : ℕ) : ℚ) ^ (Int.log 2 q + 1) := Int.lt_zpow_succ_log_self (by norm_num) q
  simp only [Nat.cast_ofNat] at hlo hhi
  constructor
  · rw [le_div_iff₀ hpos, ← zpow_add₀ (ne_of_gt h2)]
    simpa using hlo
  · rw [div_lt_iff₀ hpos, ← zpow_add₀ (ne_of_gt h2)]
    have : (prec : Int) - 1 + 1 + (Int.log 2 q - ((prec : Int) - 1)) = Int.log 2 q + 1 := by ring
    rw [this]
    exact hhi

theorem roundPos_eq_of_bounds (prec : Nat) {q : ℚ} (hq : 0 < q) (e : Int)
    (hlo : (2 : ℚ) ^ ((prec : Int) - 1) ≤ q / (2 : ℚ) ^ e)
    (hhi : q / (2 : ℚ) ^ e < (2 : ℚ) ^ ((prec : Int) - 1 + 1)) :
    roundPos prec q = (roundHalfEven (q / (2 : ℚ) ^ e) : ℚ) * (2 : ℚ) ^ e := by
  have h2 : (0 : ℚ) < 2 := by norm_num
  have hpos : (0 : ℚ) < (2 : ℚ) ^ e := zpow_pos h2 _
  have hlog : Int.log 2 q = e + ((prec : Int) - 1) := by
    apply le_antisymm
    · have : Int.log 2 q < e + ((prec : Int) - 1) + 1 := by
        rw [← Int.lt_zpow_iff_log_lt (by norm_num) hq]
        rw [div_lt_iff₀ hpos, ← zpow_add₀ (ne_of_gt h2)] at hhi
        simp only [Nat.cast_ofNat]
        have e1 : (prec : Int) - 1 + 1 + e = e + ((prec : Int) - 1) + 1 := by ring
        rw [e1] at hhi
        exact hhi
      omega
    · rw [← Int.zpow_le_iff_le_log (by norm_num) hq]
      rw [le_div_iff₀ hpos, ← zpow_add₀ (ne_of_gt h2)] at hlo
      simp only [Nat.cast_ofNat]
      have e1 : (prec : Int) - 1 + e = e + ((prec : Int) - 1) := by ring
      rw [e1] at hlo
      exact hlo
  unfold roundPos
  simp only [hlog]
  have : e + ((prec : Int) - 1) - ((prec : Int) - 1) = e := by ring
  rw [this]

/-- The rounded mantissa stays within `[2^(prec-1), 2^prec]`. -/
theorem roundHalfEven_scaled_bounds (prec : Nat) (hp : 1 ≤ prec) {x : ℚ}
    (hlo : (2 : ℚ) ^ ((prec : Int) - 1) ≤ x) (hhi : x < (2 : ℚ) ^ ((prec : Int) - 1 + 1)) :
    (2 : ℚ) ^ ((prec : Int) - 1) ≤ (roundHalfEven x : ℚ) ∧
    (roundHalfEven x : ℚ) ≤ (2 : ℚ) ^ ((prec : Int) - 1 + 1) := by
  obtain ⟨k, rfl⟩ : ∃ k : Nat, prec = k + 1 := ⟨prec - 1, by omega⟩
  have e1 : ((k + 1 : Nat) : Int) - 1 = (k : Int) := by push_cast; ring
  rw [e1] at hlo hhi ⊢
  have c1 : (2 : ℚ) ^ (k : Int) = (((2 : Int) ^ k : Int) : ℚ) := by
    rw [zpow_natCast]; push_cast; rfl
  have c2 : (2 : ℚ) ^ ((k : Int) + 1) = (((2 : Int) ^ (k + 1) : Int) : ℚ) := by
    have : (k : Int) + 1 = ((k + 1 : Nat) : Int) := by push_cast; ring
    rw [this, zpow_natCast]; push_cast; rfl
  rw [c1] at hlo ⊢
  rw [c2] at hhi ⊢
  constructor
  · have := roundHalfEven_mono hlo
    rw [roundHalfEven_intCast] at this
    exact_mod_cast this
  · have := roundHalfEven_mono (le_of_lt hhi)
    rw [roundHalfEven_intCast] at this
    exact_mod_cast this

theorem roundPos_mono (prec : Nat) (hp : 1 ≤ prec) {x y : ℚ} (hx : 0 < x) (hxy : x ≤ y) :
    roundPos prec x ≤ roundPos prec y := by
  have hy : 0 < y := lt_of_lt_of_le hx hxy
  have h2 : (0 : ℚ) < 2 := by norm_num
  have hl : Int.log 2 x ≤ Int.log 2 y := Int.log_mono_right hx hxy
  obtain ⟨bxl, bxh⟩ := scaled_bounds prec hx
  obtain ⟨byl, byh⟩ := scaled_bounds prec hy
  rcases lt_or_eq_of_le hl with hlt | heq
  · have rx := (roundHalfEven_scaled_bounds prec hp bxl bxh).2
    have ry := (roundHalfEven_scaled_bounds prec hp byl byh).1
    unfold roundPos
    simp only
    set ex := Int.log 2 x - ((prec : Int) - 1) with hex
    set ey := Int.log 2 y - ((prec : Int) - 1) with hey
    have hpx : (0 : ℚ) < (2 : ℚ) ^ ex := zpow_pos h2 _
    have hpy : (0 : ℚ) < (2 : ℚ) ^ ey := zpow_pos h2 _
    calc (roundHalfEven (x / (2 : ℚ) ^ ex) : ℚ) * (2 : ℚ) ^ ex
        ≤ (2 : ℚ) ^ ((prec : Int) - 1 + 1) * (2 : ℚ) ^ ex :=
          mul_le_mul_of_nonneg_right rx (le_of_lt hpx)
      _ = (2 : ℚ) ^ ((prec : Int) - 1 + 1 + ex) := (zpow_add₀ (ne_of_gt h2) _ _).symm
      _ ≤ (2 : ℚ) ^ ((prec : Int) - 1 + ey) := by
          apply zpow_le_zpow_right₀ (by norm_num)
          omega
      _ = (2 : ℚ) ^ ((prec : Int) - 1) * (2 : ℚ) ^ ey := zpow_add₀ (ne_of_gt h2) _ _
      _ ≤ (roundHalfEven (y / (2 : ℚ) ^ ey) : ℚ) * (2 : ℚ) ^ ey :=
          mul_le_mul_of_nonneg_right ry (le_of_lt hpy)
  · unfold roundPos
    simp only
    rw [heq]
    set ey := Int.log 2 y - ((prec : Int) - 1) with hey
    have hpy : (0 : ℚ) < (2 : ℚ) ^ ey := zpow_pos h2 _
    apply mul_le_mul_of_nonneg_right _ (le_of_lt hpy)
    have : x / (2 : ℚ) ^ ey ≤ y / (2 : ℚ) ^ ey := div_le_div_of_nonneg_right hxy (le_of_lt hpy)
    exact_mod_cast roundHalfEven_mono this

theorem roundPos_pos (prec : Nat) (hp : 1 ≤ prec) {x : ℚ} (hx : 0 < x) : 0 < roundPos prec x := by
  have h2 : (0 : ℚ) < 2 := by norm_num
  obtain ⟨bxl, bxh⟩ := scaled_bounds prec hx
  have rx := (roundHalfEven_scaled_bounds prec hp bxl bxh).1
  unfold roundPos
  simp only
  apply mul_pos _ (zpow_pos h2 _)
  exact lt_of_lt_of_le (zpow_pos h2 _) rx

theorem roundToPrec_nonneg (prec : Nat) (hp : 1 ≤ prec) {x : ℚ} (hx : 0 ≤ x) :
    0 ≤ roundToPrec prec x := by
  unfold roundToPrec
  split_ifs with h0 h1
  · exact le_refl _
  · exact le_of_lt (roundPos_pos prec hp h1)
  · exact absurd (lt_of_le_of_ne hx (Ne.symm h0)) h1

theorem roundToPrec_mono (prec : Nat) (hp : 1 ≤ prec) {x y : ℚ} (hx : 0 ≤ x) (hxy : x ≤ y) :
    roundToPrec prec x ≤ roundToPrec prec y := by
  rcases eq_or_lt_of_le hx with h0 | hpos
  · rw [← h0]
    have : roundToPrec prec 0 = 0 := by simp [roundToPrec]
    rw [this]
    exact roundToPrec_nonneg prec hp (le_trans hx hxy)
  · have hy : 0 < y := lt_of_lt_of_le hpos hxy
    unfold roundToPrec
    rw [if_neg (ne_of_gt hpos), if_pos hpos, if_neg (ne_of_gt hy), if_pos hy]
    exact roundPos_mono prec hp hpos hxy

theorem roundHalfEven_eq_of_near (n : Int) {q : ℚ} (h1 : (n : ℚ) - 1 / 2 < q)
    (h2 : q < (n : ℚ) + 1 / 2) : roundHalfEven q = n := by
  have hn : ((n - 1 : Int) : ℚ) = (n : ℚ) - 1 := by push_cast; ring
  rcases le_or_lt (n : ℚ) q with h | h
  · have hf : ⌊q⌋ = n := by
      rw [Int.floor_eq_iff]
      constructor
      · exact h
      · linarith
    unfold roundHalfEven
    simp only [hf]
    rw [if_pos (by linarith)]
  · have hf : ⌊q⌋ = n - 1 := by
      rw [Int.floor_eq_iff]
      constructor
      · rw [hn]; linarith
      · rw [hn]; linarith
    unfold roundHalfEven
    simp only [hf, hn]
    rw [if_neg (by linarith), if_pos (by linarith)]
    ring

theorem magnitude_nonneg (x : Float64) : 0 ≤ x.magnitude := by
  unfold Float64.magnitude
  exact mul_nonneg (Nat.cast_nonneg _) (le_of_lt (zpow_pos (by norm_num) _))

theorem ethToWei_eq_weiOfRat (a : Float64) (h : 0 ≤ a.toRat) : ethToWei a = weiOfRat a.toRat := by
  have hm := magnitude_nonneg a
  have key : (BigFloat.SetString (FormatFloat a)).val =
      roundToPrec 64 (((roundHalfEven (a.toRat * 10 ^ 18)).toNat : ℚ) / 10 ^ 18) := by
    unfold BigFloat.SetString FormatFloat Float64.toRat
    unfold Float64.toRat at h
    cases hneg : a.neg
    · simp
    · simp only [hneg, if_true] at h ⊢
      have h0 : a.magnitude = 0 := le_antisymm (by linarith) hm
      simp [h0, roundHalfEven]
  unfold ethToWei BigFloat.Mul BigFloat.Int weiOfRat
  simp only [key]
  have hp : max (BigFloat.SetString (FormatFloat a)).prec (BigFloat.NewFloat weiPerEth).prec = 64 := by
    simp [BigFloat.SetString, BigFloat.NewFloat]
  rw [hp]
  have hv : (BigFloat.NewFloat weiPerEth).val = 10 ^ 18 := rfl
  rw [hv]
  rw [if_pos]
  apply roundToPrec_nonneg 64 (by norm_num)
  apply mul_nonneg _ (by norm_num)
  apply roundToPrec_nonneg 64 (by norm_num)
  positivity

theorem weiOfRat_mono {x y : ℚ} (hxy : x ≤ y) : weiOfRat x ≤ weiOfRat y := by
  unfold weiOfRat
  apply Int.floor_mono
  have h18 : (0 : ℚ) ≤ 10 ^ 18 := by norm_num
  have hr : roundHalfEven (x * 10 ^ 18) ≤ roundHalfEven (y * 10 ^ 18) :=
    roundHalfEven_mono (mul_le_mul_of_nonneg_right hxy h18)
  have hn : (roundHalfEven (x * 10 ^ 18)).toNat ≤ (roundHalfEven (y * 10 ^ 18)).toNat :=
    Int.toNat_le_toNat hr
  have hq : ((roundHalfEven (x * 10 ^ 18)).toNat : ℚ) / 10 ^ 18 ≤
      ((roundHalfEven (y * 10 ^ 18)).toNat : ℚ) / 10 ^ 18 :=
    div_le_div_of_nonneg_right (by exact_mod_cast hn) h18
  have h1 := roundToPrec_mono 64 (by norm_num) (by positivity) hq
  have h0 : 0 ≤ roundToPrec 64 (((roundHalfEven (x * 10 ^ 18)).toNat : ℚ) / 10 ^ 18) :=
    roundToPrec_nonneg 64 (by norm_num) (by positivity)
  exact roundToPrec_mono 64 (by norm_num) (mul_nonneg h0 h18) (mul_le_mul_of_nonneg_right h1 h18)

/-- One rounding step with its exponent and mantissa given. -/
theorem roundToPrec_eq_of_cert {q : ℚ} (hq : 0 < q) (e m : Int)
    (hlo : (2 : ℚ) ^ (63 : Int) ≤ q / (2 : ℚ) ^ e)
    (hhi : q / (2 : ℚ) ^ e < (2 : ℚ) ^ (64 : Int))
    (h1 : (m : ℚ) - 1 / 2 < q / (2 : ℚ) ^ e) (h2 : q / (2 : ℚ) ^ e < (m : ℚ) + 1 / 2) :
    roundToPrec 64 q = (m : ℚ) * (2 : ℚ) ^ e := by
  unfold roundToPrec
  rw [if_neg (ne_of_gt hq), if_pos hq]
  rw [roundPos_eq_of_bounds 64 hq e (by norm_num at hlo ⊢; exact hlo)
    (by norm_num at hhi ⊢; exact hhi)]
  rw [roundHalfEven_eq_of_near m h1 h2]

theorem weiOfRat_0_001 : weiOfRat f64_0_001.toRat = 999999999999999 := by
  have hM : roundHalfEven (f64_0_001.toRat * 10 ^ 18) = 1000000000000000 := by
    apply roundHalfEven_eq_of_near
    · norm_num [f64_0_001, Float64.toRat, Float64.magnitude]
    · norm_num [f64_0_001, Float64.toRat, Float64.magnitude]
  have hS : roundToPrec 64 (((1000000000000000 : Int).toNat : ℚ) / 10 ^ 18) =
      ((9444732965739290427 : Int) : ℚ) * (2 : ℚ) ^ (-73 : Int) := by
    have hT : (1000000000000000 : Int).toNat = 1000000000000000 := rfl
    rw [hT]
    apply roundToPrec_eq_of_cert <;> norm_num
  have hP : roundToPrec 64 (((9444732965739290427 : Int) : ℚ) * (2 : ℚ) ^ (-73 : Int) * 10 ^ 18) =
      ((16383999999999999999 : Int) : ℚ) * (2 : ℚ) ^ (-14 : Int) := by
    apply roundToPrec_eq_of_cert <;> norm_num
  unfold weiOfRat
  rw [hM, hS, hP, Int.floor_eq_iff]
  norm_num

theorem weiOfRat_0_000001 : weiOfRat f64_0_000001.toRat = 1000000000000 := by
  have hM : roundHalfEven (f64_0_000001.toRat * 10 ^ 18) = 1000000000000 := by
    apply roundHalfEven_eq_of_near
    · norm_num [f64_0_000001, Float64.toRat, Float64.magnitude]
    · norm_num [f64_0_000001, Float64.toRat, Float64.magnitude]
  have hS : roundToPrec 64 (((1000000000000 : Int).toNat : ℚ) / 10 ^ 18) =
      ((9671406556917033398 : Int) : ℚ) * (2 : ℚ) ^ (-83 : Int) := by
    have hT : (1000000000000 : Int).toNat = 1000000000000 := rfl
    rw [hT]
    apply roundToPrec_eq_of_cert <;> norm_num
  have hP : roundToPrec 64 (((9671406556917033398 : Int) : ℚ) * (2 : ℚ) ^ (-83 : Int) * 10 ^ 18) =
      ((16777216000000000001 : Int) : ℚ) * (2 : ℚ) ^ (-24 : Int) := by
    apply roundToPrec_eq_of_cert <;> norm_num
  unfold weiOfRat
  rw [hM, hS, hP, Int.floor_eq_iff]
  norm_num

theorem ethToWei_0_001 : ethToWei f64_0_001 = 999999999999999 := by
  rw [ethToWei_eq_weiOfRat _ (by norm_num [f64_0_001, Float64.toRat, Float64.magnitude])]
  exact weiOfRat_0_001

theorem formatFloat_0_001 : FormatFloat f64_0_001 = ⟨false, 1000000000000000⟩ := by
  have hM : roundHalfEven (f64_0_001.magnitude * 10 ^ 18) = 1000000000000000 := by
    apply roundHalfEven_eq_of_near
    · norm_num [f64_0_001, Float64.magnitude]
    · norm_num [f64_0_001, Float64.magnitude]
  unfold FormatFloat
  rw [hM]
  rfl

theorem stateAfter_shift {σ ε : Type} (f : σ → Option ε × σ) (s : σ) (j : Nat) :
    stateAfter f (f s).2 j = stateAfter f s (j + 1) := by
  induction j with
  | zero => rfl
  | succ j ih => simp only [stateAfter, ih]

theorem resultAt_shift {σ ε : Type} (f : σ → Option ε × σ) (s : σ) (j : Nat) :
    resultAt f (f s).2 j = resultAt f s (j + 1) := by
  unfold resultAt
  rw [stateAfter_shift]

theorem retryFrom_success {σ ε : Type} (delay : Int) (f : σ → Option ε × σ) (k : Nat) :
    ∀ (n : Nat) (err : Option ε) (s : σ), k < n →
      (∀ j, j < k → (resultAt f s j).isSome = true) → resultAt f s k = none →
      retryFrom delay f n err s =
        (none, stateAfter f s (k + 1), failedAttempts delay k ++ [RetryStep.invoke]) := by
  induction k with
  | zero =>
    intro n err s hn _ hk
    obtain ⟨m, rfl⟩ : ∃ m, n = m + 1 := ⟨n - 1, by omega⟩
    have h0 : (f s).1 = none := hk
    rcases hfs : f s with ⟨r, s1⟩
    rw [hfs] at h0
    simp only at h0
    subst h0
    simp [retryFrom, hfs, stateAfter, failedAttempts]
  | succ k ih =>
    intro n err s hn hfail hk
    obtain ⟨m, rfl⟩ : ∃ m, n = m + 1 := ⟨n - 1, by omega⟩
    have h0 : ((f s).1).isSome = true := hfail 0 (by omega)
    rcases hfs : f s with ⟨r, s1⟩
    rw [hfs] at h0
    simp only at h0
    obtain ⟨e, rfl⟩ := Option.isSome_iff_exists.mp h0
    have hs1 : s1 = (f s).2 := by rw [hfs]
    have ih1 := ih m (some e) s1 (by omega)
      (by intro j hj; rw [hs1, resultAt_shift]; exact hfail (j + 1) (by omega))
      (by rw [hs1, resultAt_shift]; exact hk)
    simp only [retryFrom, hfs, ih1, failedAttempts]
    rw [hs1, stateAfter_shift]
    simp

theorem retryFrom_exhausted {σ ε : Type} (delay : Int) (f : σ → Option ε × σ) (n : Nat) :
    ∀ (err : Option ε) (s : σ), (∀ j, j < n → (resultAt f s j).isSome = true) →
      retryFrom delay f n err s =
        (if n = 0 then err else resultAt f s (n - 1), stateAfter f s n, failedAttempts delay n) := by
  induction n with
  | zero => intro err s _; simp [retryFrom, stateAfter, failedAttempts]
  | succ n ih =>
    intro err s hfail
    have h0 : ((f s).1).isSome = true := hfail 0 (by omega)
    rcases hfs : f s with ⟨r, s1⟩
    rw [hfs] at h0
    simp only at h0
    obtain ⟨e, rfl⟩ := Option.isSome_iff_exists.mp h0
    have hs1 : s1 = (f s).2 := by rw [hfs]
    have ih1 := ih (some e) s1
      (by intro j hj; rw [hs1, resultAt_shift]; exact hfail (j + 1) (by omega))
    simp only [retryFrom, hfs, ih1, failedAttempts]
    rw [hs1, stateAfter_shift]
    rcases n with _ | n
    · simp [resultAt, stateAfter, hfs]
    · simp [resultAt_shift]

theorem count_invoke_failedAttempts (delay : Int) (k : Nat) :
    (failedAttempts delay k).count RetryStep.invoke = k := by
  induction k with
  | zero => rfl
  | succ k ih => simp [failedAttempts, ih]

theorem sleepsOf_failedAttempts (delay : Int) (k : Nat) :
    sleepsOf (failedAttempts delay k) = List.replicate k delay := by
  induction k with
  | zero => rfl
  | succ k ih =>
    unfold sleepsOf at ih ⊢
    simp [failedAttempts, ih, List.replicate_succ]

theorem slice_head (s : GoString) (h : 6 ≤ s.length) :
    GoString.slice s 0 6 = some (s.take 6) := by
  unfold GoString.slice
  rw [if_pos (by omega)]
  simp

theorem drop_eq_reverse_take (s : GoString) (n : Nat) :
    s.drop (s.length - n) = (s.reverse.take n).reverse := by
  rw [List.reverse_take]
  simp

theorem slice_last (s : GoString) (h : 4 ≤ s.length) :
    GoString.slice s ((s.length : Int) - 4) (s.length : Int) = some ((s.reverse.take 4).reverse) := by
  unfold GoString.slice
  rw [if_pos (by omega)]
  have h1 : ((s.length : Int) - 4).toNat = s.length - 4 := by omega
  have h2 : ((s.length : Int) - ((s.length : Int) - 4)).toNat = 4 := by omega
  rw [h1, h2, ← drop_eq_reverse_take s 4]
  congr 1
  apply List.take_of_length_le
  simp
  omega

theorem wrapInt64_of_inRange {x : Int} (h : InInt64 x) : wrapInt64 x = x := by
  unfold InInt64 at h
  unfold wrapInt64
  have h1 : (0 : Int) ≤ x + 2 ^ 63 := by omega
  have h2 : x + 2 ^ 63 < 2 ^ 64 := by omega
  rw [Int.emod_eq_of_lt h1 h2]
  ring

theorem runSlots_succ {σ : Type} (W : World σ) (wallets : List Wallet) (waitTime : Int) (k : Nat)
    (st : LoopState σ) :
    runSlots W wallets waitTime (k + 1) st =
      slot W wallets waitTime k (runSlots W wallets waitTime k st) := by
  unfold runSlots
  rw [List.range_succ, List.foldl_append]
  rfl

theorem checkBalanceLoop_ofBalance {σ : Type} (W : World σ) (a : Address) (n : Nat) :
    ∀ s : σ, ∀ e ∈ (checkBalanceLoop W a n s).2.2, e.ofBalance = true := by
  induction n with
  | zero =>
    intro s e he
    simp only [checkBalanceLoop, List.mem_singleton] at he
    subst he
    rfl
  | succ n ih =>
    intro s e he
    unfold checkBalanceLoop at he
    rcases hq : W.BalanceAt a s with ⟨r, s1⟩
    rw [hq] at he
    cases r with
    | none =>
      simp only [List.mem_cons] at he
      rcases he with h | h | h | h
      · subst h; rfl
      · subst h; rfl
      · subst h; rfl
      · exact ih s1 e h
    | some b =>
      simp only [List.mem_singleton] at he
      subst he
      rfl

theorem nonceAtLoop_ofNonce {σ : Type} (W : World σ) (a : Address) (n : Nat) :
    ∀ s : σ, ∀ e ∈ (nonceAtLoop W a n s).2.2, e.ofNonce = true := by
  induction n with
  | zero =>
    intro s e he
    simp only [nonceAtLoop, List.mem_singleton] at he
    subst he
    rfl
  | succ n ih =>
    intro s e he
    unfold nonceAtLoop at he
    rcases hq : W.PendingNonceAt a s with ⟨r, s1⟩
    rw [hq] at he
    cases r with
    | none =>
      simp only [List.mem_cons] at he
      rcases he with h | h | h | h
      · subst h; rfl
      · subst h; rfl
      · subst h; rfl
      · exact ih s1 e h
    | some b =>
      simp only [List.mem_singleton] at he
      subst he
      rfl

theorem sendEvent_ofSend (tx : SignedTx) (t : List RetryStep) :
    ∀ e ∈ t.map (sendEvent tx), e.ofSend = true := by
  intro e he
  rw [List.mem_map] at he
  obtain ⟨x, _, rfl⟩ := he
  cases x <;> rfl

theorem inner_of_ofBalance {e : Event} (h : e.ofBalance = true) : e.isInner = true := by
  simp [Event.isInner, h]

theorem inner_of_ofNonce {e : Event} (h : e.ofNonce = true) : e.isInner = true := by
  simp [Event.isInner, h]

theorem inner_of_ofSend {e : Event} (h : e.ofSend = true) : e.isInner = true := by
  simp [Event.isInner, h]

theorem inner_not_wait {e : Event} (h : e.isInner = true) : e.isWait = false := by
  cases e <;> first | rfl | simp [Event.isInner, Event.ofBalance, Event.ofNonce, Event.ofSend, Event.isSign] at h

theorem inner_not_report {e : Event} (h : e.isInner = true) : e.isReport = false := by
  rcases e with _ | _ | _ | _ | _ | _ | _ | _ | l
  all_goals first
    | rfl
    | (cases l <;> first | rfl | simp [Event.isInner, Event.ofBalance, Event.ofNonce, Event.ofSend, Event.isSign] at h)

theorem randomGasPrice_main {σ : Type} (f : Int → σ → Int × σ) (s : σ) :
    randomGasPrice f minGasPrice maxGasPrice s =
      (some (wrapInt64 (minGasPrice + (f 600001 s).1)), (f 600001 s).2) := by
  have hn : wrapInt64 (wrapInt64 (maxGasPrice - minGasPrice) + 1) = 600001 := by
    norm_num [wrapInt64, maxGasPrice, minGasPrice]
  unfold randomGasPrice
  simp only [hn]
  rw [if_neg (by norm_num)]

theorem slot_general {σ : Type} (W : World σ) (wallets : List Wallet) (waitTime : Int) (i : Nat)
    (st : LoopState σ) (hp : st.panicked = false) (hW : 0 < wallets.length)
    (hlen : st.transactionCounts.length = wallets.length) :
    ∃ mid tail,
      (slot W wallets waitTime i st).trace =
        st.trace ++ Event.checkBalance i (i % wallets.length) :: (mid ++ tail) ∧
      (∀ e ∈ mid, e.isInner = true) ∧ IsSlotTail waitTime tail ∧
      (slot W wallets waitTime i st).panicked = false ∧
      (slot W wallets waitTime i st).transactionCounts.length = wallets.length := by
  have hidx : i % wallets.length < wallets.length := Nat.mod_lt _ hW
  obtain ⟨wallet, hw⟩ : ∃ w, wallets[i % wallets.length]? = some w :=
    ⟨_, List.getElem?_eq_getElem hidx⟩
  obtain ⟨c, hc⟩ : ∃ c, st.transactionCounts[i % wallets.length]? = some c :=
    ⟨_, List.getElem?_eq_getElem (by omega)⟩
  unfold slot
  simp only [hp, hw, hc, Bool.false_eq_true, if_false, randomGasPrice_main]
  have hB := checkBalanceLoop_ofBalance W wallet.From maxRetries.toNat st.env
  generalize hb : checkBalanceWithRetry W wallet.From maxRetries st.env = b
  have hB1 : ∀ e ∈ b.2.2, e.isInner = true := by
    intro e he
    rw [← hb] at he
    exact inner_of_ofBalance (hB e he)
  split
  · refine ⟨b.2.2, [Event.print (Line.insufficientBalance wallet.From)], ?_, hB1,
      Or.inl ⟨_, rfl⟩, rfl, hlen⟩
    simp
  · generalize W.GenerateKey b.2.1 = r
    generalize randomEth W r.2 = a
    generalize W.Int63n 600001 a.2 = g
    generalize hn : nonceAtWithRetry W wallet.From maxRetries g.2 = n
    have hN1 : ∀ e ∈ n.2.2, e.isInner = true := by
      intro e he
      rw [← hn] at he
      exact inner_of_ofNonce (nonceAtLoop_ofNonce W wallet.From maxRetries.toNat g.2 e he)
    split
    · refine ⟨b.2.2 ++ n.2.2 ++ [Event.Sign wallet.From], [Event.print Line.signingFailed],
        ?_, ?_, Or.inr (Or.inl rfl), rfl, hlen⟩
      · simp
      · intro e he
        simp only [List.mem_append, List.mem_singleton] at he
        rcases he with (h | h) | h
        · exact hB1 e h
        · exact hN1 e h
        · subst h; rfl
    · rename_i signedTx _
      generalize retry maxRetries retryDelay (W.SendTransaction signedTx)
        (W.Signer wallet ⟨n.1, r.1, a.1, gasLimit, wrapInt64 (minGasPrice + g.1)⟩ n.2.1).2 = snd
      have hS1 : ∀ e ∈ snd.2.2.map (sendEvent signedTx), e.isInner = true := by
        intro e he
        exact inner_of_ofSend (sendEvent_ofSend signedTx _ e he)
      have hmid : ∀ e ∈ b.2.2 ++ n.2.2 ++ [Event.Sign wallet.From] ++
          snd.2.2.map (sendEvent signedTx), e.isInner = true := by
        intro e he
        simp only [List.mem_append, List.mem_singleton] at he
        rcases he with ((h | h) | h) | h
        · exact hB1 e h
        · exact hN1 e h
        · subst h; rfl
        · exact hS1 e (by simpa using h)
      split
      · refine ⟨b.2.2 ++ n.2.2 ++ [Event.Sign wallet.From] ++ snd.2.2.map (sendEvent signedTx),
          [Event.print Line.sendFailed], ?_, hmid, Or.inr (Or.inr (Or.inl rfl)), rfl, hlen⟩
        simp
      · refine ⟨b.2.2 ++ n.2.2 ++ [Event.Sign wallet.From] ++ snd.2.2.map (sendEvent signedTx),
          [Event.print (Line.success wallet.From r.1 a.1 signedTx.hash (wrapInt64 (c + 1))),
            Event.wait waitTime], ?_, hmid,
          Or.inr (Or.inr (Or.inr ⟨_, _, _, _, _, rfl⟩)), rfl, ?_⟩
        · simp
        · simp [hlen]

theorem slotsOf_append (t u : List Event) : slotsOf (t ++ u) = slotsOf t ++ slotsOf u := by
  simp [slotsOf, List.filterMap_append]

theorem slotsOf_inner {t : List Event} (h : ∀ e ∈ t, e.isInner = true) : slotsOf t = [] := by
  unfold slotsOf
  rw [List.filterMap_eq_nil_iff]
  intro e he
  have := h e he
  cases e <;> first | rfl | simp [Event.isInner, Event.ofBalance, Event.ofNonce, Event.ofSend, Event.isSign] at this

theorem slotsOf_tail {waitTime : Int} {t : List Event} (h : IsSlotTail waitTime t) :
    slotsOf t = [] := by
  rcases h with ⟨a, rfl⟩ | rfl | rfl | ⟨a, r, amt, h, c, rfl⟩ <;> rfl

theorem countP_inner_wait {t : List Event} (h : ∀ e ∈ t, e.isInner = true) :
    t.countP Event.isWait = 0 := by
  rw [List.countP_eq_zero]
  intro e he
  simp [inner_not_wait (h e he)]

theorem countP_inner_report {t : List Event} (h : ∀ e ∈ t, e.isInner = true) :
    t.countP Event.isReport = 0 := by
  rw [List.countP_eq_zero]
  intro e he
  simp [inner_not_report (h e he)]

theorem tail_wait_eq_report {waitTime : Int} {t : List Event} (h : IsSlotTail waitTime t) :
    t.countP Event.isWait = t.countP Event.isReport := by
  rcases h with ⟨a, rfl⟩ | rfl | rfl | ⟨a, r, amt, h, c, rfl⟩ <;> rfl

theorem reportWaitSteps_append (t u : List Event) :
    reportWaitSteps (t ++ u) = reportWaitSteps t ++ reportWaitSteps u := by
  simp [reportWaitSteps, List.filterMap_append]

theorem reportWaitSteps_inner {t : List Event} (h : ∀ e ∈ t, e.isInner = true) :
    reportWaitSteps t = [] := by
  unfold reportWaitSteps
  rw [List.filterMap_eq_nil_iff]
  intro e he
  have := h e he
  rcases e with _ | _ | _ | _ | _ | _ | _ | _ | l
  case print =>
    cases l <;> first
      | rfl
      | simp [Event.isInner, Event.ofBalance, Event.ofNonce, Event.ofSend, Event.isSign] at this
  all_goals first
    | rfl
    | simp [Event.isInner, Event.ofBalance, Event.ofNonce, Event.ofSend, Event.isSign] at this

theorem tail_reportWaitSteps {waitTime : Int} {t : List Event} (h : IsSlotTail waitTime t) :
    (t.countP Event.isReport = 0 ∧ reportWaitSteps t = []) ∨
    (t.countP Event.isReport = 1 ∧ reportWaitSteps t = [none, some waitTime]) := by
  rcases h with ⟨a, rfl⟩ | rfl | rfl | ⟨a, r, amt, h, c, rfl⟩
  · exact Or.inl ⟨rfl, rfl⟩
  · exact Or.inl ⟨rfl, rfl⟩
  · exact Or.inl ⟨rfl, rfl⟩
  · exact Or.inr ⟨rfl, rfl⟩

/-- What holds after `k` iterations from the initial state, whatever the
environment does. -/
theorem runSlots_general {σ : Type} (W : World σ) (wallets : List Wallet) (waitTime : Int)
    (s : σ) (hW : 0 < wallets.length) (k : Nat) :
    (runSlots W wallets waitTime k ⟨s, [], List.replicate wallets.length 0, false⟩).panicked
      = false ∧
    (runSlots W wallets waitTime k
      ⟨s, [], List.replicate wallets.length 0, false⟩).transactionCounts.length
      = wallets.length ∧
    slotsOf (runSlots W wallets waitTime k ⟨s, [], List.replicate wallets.length 0, false⟩).trace
      = (List.range k).map (fun i => (i, i % wallets.length)) ∧
    (runSlots W wallets waitTime k
      ⟨s, [], List.replicate wallets.length 0, false⟩).trace.countP Event.isWait
      = (runSlots W wallets waitTime k
      ⟨s, [], List.replicate wallets.length 0, false⟩).trace.countP Event.isReport ∧
    reportWaitSteps (runSlots W wallets waitTime k
      ⟨s, [], List.replicate wallets.length 0, false⟩).trace
      = successThenWait waitTime ((runSlots W wallets waitTime k
      ⟨s, [], List.replicate wallets.length 0, false⟩).trace.countP Event.isReport) := by
  induction k with
  | zero => simp [runSlots, slotsOf, reportWaitSteps, successThenWait]
  | succ k ih =>
    obtain ⟨hp, hlen, hslots, hwr, hord⟩ := ih
    rw [runSlots_succ]
    generalize runSlots W wallets waitTime k ⟨s, [], List.replicate wallets.length 0, false⟩ = st
      at hp hlen hslots hwr hord
    obtain ⟨mid, tail, htr, hmid, htail, hp1, hlen1⟩ :=
      slot_general W wallets waitTime k st hp hW hlen
    refine ⟨hp1, hlen1, ?_, ?_, ?_⟩
    · rw [htr, slotsOf_append, hslots, List.range_succ, List.map_append]
      congr 1
      have : slotsOf (Event.checkBalance k (k % wallets.length) :: (mid ++ tail)) =
          (k, k % wallets.length) :: slotsOf (mid ++ tail) := rfl
      rw [this, slotsOf_append, slotsOf_inner hmid, slotsOf_tail htail]
      rfl
    · rw [htr]
      simp only [List.countP_append, List.countP_cons, Event.isWait, Event.isReport]
      rw [countP_inner_wait hmid, countP_inner_report hmid, tail_wait_eq_report htail, hwr]
    · rw [htr]
      have hcb : reportWaitSteps (Event.checkBalance k (k % wallets.length) :: (mid ++ tail)) =
          reportWaitSteps (mid ++ tail) := rfl
      have hcc : (Event.checkBalance k (k % wallets.length) :: (mid ++ tail)).countP
          Event.isReport = (mid ++ tail).countP Event.isReport := rfl
      rw [reportWaitSteps_append, hcb, reportWaitSteps_append, reportWaitSteps_inner hmid,
        List.countP_append, hcc, List.countP_append, countP_inner_report hmid, hord]
      rcases tail_reportWaitSteps htail with ⟨h0, h1⟩ | ⟨h0, h1⟩
      · rw [h0, h1]
        simp
      · rw [h0, h1]
        simp [successThenWait]

theorem count_mod_eq (r : Nat) (hr : 0 < r) (v : Nat) (hv : v < r) (b : Nat) :
    Nat.count (fun i => i % r = v) b = b / r + if v < b % r then 1 else 0 := by
  have h := Nat.count_modEq_card b hr v
  simp only [Nat.ModEq, Nat.mod_eq_of_lt hv] at h
  convert h

theorem maxRetries_toNat : maxRetries.toNat = 5 := rfl

theorem checkBalanceLoop_low {σ : Type} (W : World σ) (a : Address)
    (hlow : ∀ s b, (W.BalanceAt a s).1 = some b → b < ethToWei f64_0_001) (n : Nat) :
    ∀ s : σ, (checkBalanceLoop W a n s).1 < ethToWei f64_0_001 := by
  induction n with
  | zero =>
    intro s
    rw [ethToWei_0_001]
    simp [checkBalanceLoop]
  | succ n ih =>
    intro s
    unfold checkBalanceLoop
    rcases hq : W.BalanceAt a s with ⟨r, s1⟩
    cases r with
    | none => exact ih s1
    | some b => exact hlow s b (by rw [hq])

theorem slot_insufficient {σ : Type} (W : World σ) (wallets : List Wallet) (waitTime : Int)
    (i : Nat) (st : LoopState σ) (wallet : Wallet) (hp : st.panicked = false)
    (hw : wallets[i % wallets.length]? = some wallet)
    (hlow : ∀ s b, (W.BalanceAt wallet.From s).1 = some b → b < ethToWei f64_0_001) :
    ∃ bt env1, (∀ e ∈ bt, e.ofBalance = true) ∧
      slot W wallets waitTime i st =
        ⟨env1, st.trace ++ Event.checkBalance i (i % wallets.length) ::
          (bt ++ [Event.print (Line.insufficientBalance wallet.From)]),
          st.transactionCounts, false⟩ := by
  have hb : (checkBalanceWithRetry W wallet.From maxRetries st.env).1 < ethToWei f64_0_001 :=
    checkBalanceLoop_low W wallet.From hlow maxRetries.toNat st.env
  have hB := checkBalanceLoop_ofBalance W wallet.From maxRetries.toNat st.env
  refine ⟨(checkBalanceWithRetry W wallet.From maxRetries st.env).2.2,
    (checkBalanceWithRetry W wallet.From maxRetries st.env).2.1, hB, ?_⟩
  unfold slot
  simp only [hp, hw, Bool.false_eq_true, if_false]
  rw [if_pos hb]
  simp

theorem checkBalance_first {σ : Type} (W : World σ) (a : Address) (s : σ) (b : Int)
    (h : (W.BalanceAt a s).1 = some b) :
    checkBalanceWithRetry W a maxRetries s = (b, (W.BalanceAt a s).2, [Event.BalanceAt a]) := by
  unfold checkBalanceWithRetry
  rw [maxRetries_toNat]
  unfold checkBalanceLoop
  rcases hq : W.BalanceAt a s with ⟨r, s1⟩
  rw [hq] at h
  simp only at h
  subst h
  rfl

theorem retry_first {σ ε : Type} (delay : Int) (f : σ → Option ε × σ) (s : σ)
    (h : (f s).1 = none) :
    retry maxRetries delay f s = (none, (f s).2, [RetryStep.invoke]) := by
  unfold retry
  rw [maxRetries_toNat]
  unfold retryFrom
  rcases hq : f s with ⟨r, s1⟩
  rw [hq] at h
  simp only at h
  subst h
  rfl

theorem marks_append (t u : List Event) : marks (t ++ u) = marks t ++ marks u := by
  simp [marks, List.filterMap_append]

theorem marks_inner {t : List Event} (h : ∀ e ∈ t, e.isInner = true) : marks t = [] := by
  unfold marks
  rw [List.filterMap_eq_nil_iff]
  intro e he
  have := h e he
  rcases e with _ | _ | _ | _ | _ | _ | _ | _ | l
  case print =>
    cases l <;> first | rfl | simp [Event.isInner, Event.ofBalance, Event.ofNonce, Event.ofSend, Event.isSign] at this
  all_goals first
    | rfl
    | simp [Event.isInner, Event.ofBalance, Event.ofNonce, Event.ofSend, Event.isSign] at this

theorem slot_success {σ : Type} (W : World σ) (wallets : List Wallet) (waitTime : Int)
    (i : Nat) (st : LoopState σ) (wallet : Wallet) (c : Int) (hp : st.panicked = false)
    (hw : wallets[i % wallets.length]? = some wallet)
    (hc : st.transactionCounts[i % wallets.length]? = some c)
    (hbal : ∀ a s, ∃ b, (W.BalanceAt a s).1 = some b ∧ ethToWei f64_0_001 ≤ b)
    (hsign : ∀ w tx s, ((W.Signer w tx s).1).isSome = true)
    (hsend : ∀ tx s, (W.SendTransaction tx s).1 = none) :
    ∃ mid env1 r amt h, (∀ e ∈ mid, e.isInner = true) ∧
      slot W wallets waitTime i st =
        ⟨env1, st.trace ++ Event.checkBalance i (i % wallets.length) ::
          (mid ++ [Event.print (Line.success wallet.From r amt h (wrapInt64 (c + 1))),
            Event.wait waitTime]),
          st.transactionCounts.set (i % wallets.length) (wrapInt64 (c + 1)), false⟩ := by
  obtain ⟨b, hb, hge⟩ := hbal wallet.From st.env
  unfold slot
  simp only [hp, hw, hc, Bool.false_eq_true, if_false, randomGasPrice_main,
    checkBalance_first W wallet.From st.env b hb]
  rw [if_neg (by omega)]
  generalize W.GenerateKey (W.BalanceAt wallet.From st.env).2 = r
  generalize randomEth W r.2 = a
  generalize W.Int63n 600001 a.2 = g
  generalize hn : nonceAtWithRetry W wallet.From maxRetries g.2 = n
  have hN1 : ∀ e ∈ n.2.2, e.isInner = true := by
    intro e he
    rw [← hn] at he
    exact inner_of_ofNonce (nonceAtLoop_ofNonce W wallet.From maxRetries.toNat g.2 e he)
  have hs := hsign wallet ⟨n.1, r.1, a.1, gasLimit, wrapInt64 (minGasPrice + g.1)⟩ n.2.1
  rcases hsg : W.Signer wallet ⟨n.1, r.1, a.1, gasLimit, wrapInt64 (minGasPrice + g.1)⟩ n.2.1
    with ⟨o, s6⟩
  rw [hsg] at hs
  simp only at hs
  obtain ⟨signedTx, rfl⟩ := Option.isSome_iff_exists.mp hs
  simp only [retry_first retryDelay (W.SendTransaction signedTx) s6 (hsend signedTx s6)]
  refine ⟨[Event.BalanceAt wallet.From] ++ n.2.2 ++ [Event.Sign wallet.From] ++
    [Event.SendTransaction signedTx], (W.SendTransaction signedTx s6).2, r.1, a.1,
    signedTx.hash, ?_, ?_⟩
  · intro e he
    simp only [List.mem_append, List.mem_singleton] at he
    rcases he with ((h | h) | h) | h
    · subst h; rfl
    · exact hN1 e h
    · subst h; rfl
    · subst h; rfl
  · simp [sendEvent]

theorem quiet_of_ofBalance {e : Event} (h : e.ofBalance = true) : e.isQuiet = true := by
  rcases e with _ | _ | _ | _ | _ | _ | _ | _ | l
  case print => cases l <;> first | rfl | simp [Event.ofBalance] at h
  all_goals first
    | rfl
    | simp [Event.ofBalance] at h

theorem quiet_excludes {e : Event} (h : e.isQuiet = true) :
    e.isReport = false ∧ e.isNonceQuery = false ∧ e.isSign = false ∧
    e.isBroadcast = false ∧ e.isWait = false := by
  rcases e with _ | _ | _ | _ | _ | _ | _ | _ | l
  case print =>
    cases l <;> first
      | exact ⟨rfl, rfl, rfl, rfl, rfl⟩
      | simp [Event.isQuiet, Event.ofBalance] at h
  all_goals first
    | exact ⟨rfl, rfl, rfl, rfl, rfl⟩
    | simp [Event.isQuiet, Event.ofBalance] at h

theorem ofBalance_not_skipLog {t : List Event} (h : ∀ e ∈ t, e.ofBalance = true) :
    t.countP Event.isSkipLog = 0 := by
  rw [List.countP_eq_zero]
  intro e he
  have := h e he
  rcases e with _ | _ | _ | _ | _ | _ | _ | _ | l
  case print =>
    cases l <;> first
      | (simp [Event.ofBalance] at this; done)
      | simp [Event.isSkipLog]
  all_goals simp [Event.isSkipLog]

/-- Every slot stops at the balance check when every balance obtained is
below the threshold. -/
theorem runSlots_insufficient {σ : Type} (W : World σ) (wallets : List Wallet) (waitTime : Int)
    (s : σ) (hW : 0 < wallets.length)
    (hlow : ∀ w ∈ wallets, ∀ s b, (W.BalanceAt w.From s).1 = some b → b < ethToWei f64_0_001)
    (k : Nat) :
    (runSlots W wallets waitTime k ⟨s, [], List.replicate wallets.length 0, false⟩).panicked
      = false ∧
    (runSlots W wallets waitTime k
      ⟨s, [], List.replicate wallets.length 0, false⟩).transactionCounts
      = List.replicate wallets.length 0 ∧
    (runSlots W wallets waitTime k
      ⟨s, [], List.replicate wallets.length 0, false⟩).trace.countP Event.isSkipLog = k ∧
    ∀ e ∈ (runSlots W wallets waitTime k
      ⟨s, [], List.replicate wallets.length 0, false⟩).trace, e.isQuiet = true := by
  induction k with
  | zero => simp [runSlots]
  | succ k ih =>
    obtain ⟨hp, hcounts, hskip, hquiet⟩ := ih
    rw [runSlots_succ]
    generalize runSlots W wallets waitTime k ⟨s, [], List.replicate wallets.length 0, false⟩ = st
      at hp hcounts hskip hquiet
    have hidx : k % wallets.length < wallets.length := Nat.mod_lt _ hW
    obtain ⟨wallet, hw⟩ : ∃ w, wallets[k % wallets.length]? = some w :=
      ⟨_, List.getElem?_eq_getElem hidx⟩
    have hmem : wallet ∈ wallets := List.getElem?_mem hw
    obtain ⟨bt, env1, hbt, hslot⟩ :=
      slot_insufficient W wallets waitTime k st wallet hp hw (hlow wallet hmem)
    rw [hslot]
    refine ⟨rfl, hcounts, ?_, ?_⟩
    · simp only [List.countP_append, List.countP_cons, List.countP_nil, hskip,
        ofBalance_not_skipLog hbt, Event.isSkipLog]
      simp
    · intro e he
      simp only [List.mem_append, List.mem_cons, List.mem_singleton] at he
      rcases he with h | h | h | h
      · exact hquiet e h
      · subst h; rfl
      · exact quiet_of_ofBalance (hbt e h)
      · rcases h with h | h
        · subst h; rfl
        · exact absurd h (List.not_mem_nil e)

theorem countP_quiet {t : List Event} (h : ∀ e ∈ t, e.isQuiet = true) :
    t.countP Event.isReport = 0 ∧ t.countP Event.isNonceQuery = 0 ∧
    t.countP Event.isSign = 0 ∧ t.countP Event.isBroadcast = 0 ∧
    t.countP Event.isWait = 0 := by
  refine ⟨?_, ?_, ?_, ?_, ?_⟩ <;> rw [List.countP_eq_zero] <;> intro e he
  · simp [(quiet_excludes (h e he)).1]
  · simp [(quiet_excludes (h e he)).2.1]
  · simp [(quiet_excludes (h e he)).2.2.1]
  · simp [(quiet_excludes (h e he)).2.2.2.1]
  · simp [(quiet_excludes (h e he)).2.2.2.2]

theorem set_map_range (f : Nat → Int) (n idx : Nat) (v : Int) :
    ((List.range n).map f).set idx v =
      (List.range n).map (fun w => if w = idx then v else f w) := by
  apply List.ext_getElem?
  intro j
  rw [List.getElem?_set]
  by_cases hj : j < n
  · by_cases hij : idx = j
    · subst hij
      simp [hj]
    · have hji : ¬ j = idx := fun h => hij h.symm
      simp [hij, hji, hj, List.getElem?_range]
  · have h1 : ((List.range n).map f)[j]? = none := by simp; omega
    have h2 : ((List.range n).map (fun w => if w = idx then v else f w))[j]? = none := by
      simp; omega
    rw [h2]
    split_ifs with h h'
    · simp at h'
      omega
    · rfl
    · exact h1

theorem successMarks_succ (w k : Nat) :
    successMarks w (k + 1) =
      successMarks w k ++ [Sum.inl (k, k % w), Sum.inr (((k / w : Nat) : Int) + 1)] := by
  unfold successMarks
  rw [List.range_succ, List.flatMap_append]
  simp

/-- Every slot ends in a success line when every balance is sufficient and
signing and the first broadcast succeed. -/
theorem runSlots_success {σ : Type} (W : World σ) (wallets : List Wallet) (waitTime : Int)
    (s : σ) (hW : 0 < wallets.length)
    (hbal : ∀ a s, ∃ b, (W.BalanceAt a s).1 = some b ∧ ethToWei f64_0_001 ≤ b)
    (hsign : ∀ w tx s, ((W.Signer w tx s).1).isSome = true)
    (hsend : ∀ tx s, (W.SendTransaction tx s).1 = none) (k : Nat) (hk : k < 2 ^ 63) :
    (runSlots W wallets waitTime k ⟨s, [], List.replicate wallets.length 0, false⟩).panicked
      = false ∧
    (runSlots W wallets waitTime k
      ⟨s, [], List.replicate wallets.length 0, false⟩).transactionCounts
      = (List.range wallets.length).map
          (fun w => ((Nat.count (fun i => i % wallets.length = w) k : Nat) : Int)) ∧
    marks (runSlots W wallets waitTime k
      ⟨s, [], List.replicate wallets.length 0, false⟩).trace = successMarks wallets.length k ∧
    (runSlots W wallets waitTime k
      ⟨s, [], List.replicate wallets.length 0, false⟩).trace.countP Event.isReport = k := by
  induction k with
  | zero =>
    refine ⟨rfl, ?_, rfl, rfl⟩
    simp [runSlots]
  | succ k ih =>
    obtain ⟨hp, hcounts, hmarks, hrep⟩ := ih (by omega)
    rw [runSlots_succ]
    generalize runSlots W wallets waitTime k ⟨s, [], List.replicate wallets.length 0, false⟩ = st
      at hp hcounts hmarks hrep
    have hidx : k % wallets.length < wallets.length := Nat.mod_lt _ hW
    obtain ⟨wallet, hw⟩ : ∃ w, wallets[k % wallets.length]? = some w :=
      ⟨_, List.getElem?_eq_getElem hidx⟩
    have hcnt : Nat.count (fun i => i % wallets.length = k % wallets.length) k
        = k / wallets.length := by
      rw [count_mod_eq wallets.length hW _ hidx k]
      simp
    have hc : st.transactionCounts[k % wallets.length]? = some ((k / wallets.length : Nat) : Int) := by
      rw [hcounts]
      simp [List.getElem?_range, hidx, hcnt]
    obtain ⟨mid, env1, r, amt, h, hmid, hslot⟩ :=
      slot_success W wallets waitTime k st wallet _ hp hw hc hbal hsign hsend
    have hdiv : k / wallets.length ≤ k := Nat.div_le_self _ _
    have hwrap : wrapInt64 (((k / wallets.length : Nat) : Int) + 1)
        = ((k / wallets.length : Nat) : Int) + 1 := by
      apply wrapInt64_of_inRange
      unfold InInt64
      constructor
      · have : (0 : Int) ≤ ((k / wallets.length : Nat) : Int) := Int.natCast_nonneg _
        omega
      · have : ((k / wallets.length : Nat) : Int) ≤ (k : Int) := by exact_mod_cast hdiv
        have : (k : Int) + 1 < 2 ^ 63 := by exact_mod_cast hk
        omega
    rw [hslot, hwrap]
    refine ⟨rfl, ?_, ?_, ?_⟩
    · simp only
      rw [hcounts, set_map_range]
      apply List.map_congr_left
      intro w hwr
      rw [List.mem_range] at hwr
      rw [Nat.count_succ]
      by_cases hwk : w = k % wallets.length
      · subst hwk
        simp [hcnt]
      · have : ¬ k % wallets.length = w := fun h => hwk h.symm
        simp [hwk, this]
    · simp only
      rw [marks_append, hmarks, successMarks_succ]
      have h1 : marks (Event.checkBalance k (k % wallets.length) ::
          (mid ++ [Event.print (Line.success wallet.From r amt h
            (((k / wallets.length : Nat) : Int) + 1)), Event.wait waitTime])) =
          Sum.inl (k, k % wallets.length) :: marks (mid ++
            [Event.print (Line.success wallet.From r amt h
            (((k / wallets.length : Nat) : Int) + 1)), Event.wait waitTime]) := rfl
      rw [h1, marks_append, marks_inner hmid]
      rfl
    · simp only [List.countP_append, List.countP_cons, List.countP_nil, hrep,
        countP_inner_report hmid, Event.isReport]
      simp

theorem checkBalanceLoop_within {σ : Type} (W : World σ) (a : Address) (n : Nat) :
    ∀ s : σ, ∀ e ∈ (checkBalanceLoop W a n s).2.2, e.within a := by
  induction n with
  | zero =>
    intro s e he
    simp only [checkBalanceLoop, List.mem_singleton] at he
    subst he
    exact ⟨rfl, by intro b hb; simp [Event.addressOf] at hb⟩
  | succ n ih =>
    intro s e he
    unfold checkBalanceLoop at he
    rcases hq : W.BalanceAt a s with ⟨r, s1⟩
    rw [hq] at he
    cases r with
    | none =>
      simp only [List.mem_cons] at he
      rcases he with h | h | h | h
      · subst h
        exact ⟨rfl, by intro b hb; simp [Event.addressOf] at hb; exact hb.symm⟩
      · subst h
        exact ⟨rfl, by intro b hb; simp [Event.addressOf] at hb⟩
      · subst h
        exact ⟨rfl, by intro b hb; simp [Event.addressOf] at hb⟩
      · exact ih s1 e h
    | some b =>
      simp only [List.mem_singleton] at he
      subst he
      exact ⟨rfl, by intro b hb; simp [Event.addressOf] at hb; exact hb.symm⟩

theorem checkBalanceLoop_head {σ : Type} (W : World σ) (a : Address) (n : Nat) (s : σ) :
    ∃ rest, (checkBalanceLoop W a (n + 1) s).2.2 = Event.BalanceAt a :: rest ∧
      ∀ e ∈ rest, e.within a := by
  have hall := checkBalanceLoop_within W a (n + 1) s
  unfold checkBalanceLoop at hall ⊢
  rcases hq : W.BalanceAt a s with ⟨r, s1⟩
  rw [hq] at hall
  cases r with
  | none =>
    refine ⟨_, rfl, ?_⟩
    intro e he
    exact hall e (List.mem_cons_of_mem _ he)
  | some b =>
    refine ⟨[], rfl, ?_⟩
    intro e he
    exact absurd he (List.not_mem_nil e)

theorem nonceAtLoop_within {σ : Type} (W : World σ) (a : Address) (n : Nat) :
    ∀ s : σ, ∀ e ∈ (nonceAtLoop W a n s).2.2, e.within a := by
  induction n with
  | zero =>
    intro s e he
    simp only [nonceAtLoop, List.mem_singleton] at he
    subst he
    exact ⟨rfl, by intro b hb; simp [Event.addressOf] at hb⟩
  | succ n ih =>
    intro s e he
    unfold nonceAtLoop at he
    rcases hq : W.PendingNonceAt a s with ⟨r, s1⟩
    rw [hq] at he
    cases r with
    | none =>
      simp only [List.mem_cons] at he
      rcases he with h | h | h | h
      · subst h
        exact ⟨rfl, by intro b hb; simp [Event.addressOf] at hb; exact hb.symm⟩
      · subst h
        exact ⟨rfl, by intro b hb; simp [Event.addressOf] at hb⟩
      · subst h
        exact ⟨rfl, by intro b hb; simp [Event.addressOf] at hb⟩
      · exact ih s1 e h
    | some b =>
      simp only [List.mem_singleton] at he
      subst he
      exact ⟨rfl, by intro b hb; simp [Event.addressOf] at hb; exact hb.symm⟩

theorem sendEvent_within (tx : SignedTx) (t : List RetryStep) (a : Address) :
    ∀ e ∈ t.map (sendEvent tx), e.within a := by
  intro e he
  rw [List.mem_map] at he
  obtain ⟨x, _, rfl⟩ := he
  cases x <;> exact ⟨rfl, by intro b hb; simp [sendEvent, Event.addressOf] at hb⟩

/-- The steps of one slot: the marker, the first balance query for the
wallet at index `i % len(wallets)`, and steps that name no other account. -/
theorem slot_segment {σ : Type} (W : World σ) (wallets : List Wallet) (waitTime : Int) (i : Nat)
    (st : LoopState σ) (hp : st.panicked = false) (hW : 0 < wallets.length)
    (hlen : st.transactionCounts.length = wallets.length) :
    ∃ wallet seg, wallets[i % wallets.length]? = some wallet ∧
      (slot W wallets waitTime i st).trace =
        st.trace ++ Event.checkBalance i (i % wallets.length) ::
          Event.BalanceAt wallet.From :: seg ∧
      ∀ e ∈ seg, e.within wallet.From := by
  have hidx : i % wallets.length < wallets.length := Nat.mod_lt _ hW
  obtain ⟨wallet, hw⟩ : ∃ w, wallets[i % wallets.length]? = some w :=
    ⟨_, List.getElem?_eq_getElem hidx⟩
  obtain ⟨c, hc⟩ : ∃ c, st.transactionCounts[i % wallets.length]? = some c :=
    ⟨_, List.getElem?_eq_getElem (by omega)⟩
  suffices hsuff : ∃ seg, (slot W wallets waitTime i st).trace =
      st.trace ++ Event.checkBalance i (i % wallets.length) ::
        Event.BalanceAt wallet.From :: seg ∧ ∀ e ∈ seg, e.within wallet.From by
    obtain ⟨seg, h1, h2⟩ := hsuff
    exact ⟨wallet, seg, hw, h1, h2⟩
  obtain ⟨rest, hhead, hrest⟩ := checkBalanceLoop_head W wallet.From 4 st.env
  have hb5 : (checkBalanceWithRetry W wallet.From maxRetries st.env).2.2 =
      Event.BalanceAt wallet.From :: rest := hhead
  have wsign : (Event.Sign wallet.From).within wallet.From :=
    ⟨rfl, by intro b hb; simp [Event.addressOf] at hb; exact hb.symm⟩
  unfold slot
  simp only [hp, hw, hc, Bool.false_eq_true, if_false, randomGasPrice_main, hb5]
  generalize checkBalanceWithRetry W wallet.From maxRetries st.env = b
  split
  · refine ⟨rest ++ [Event.print (Line.insufficientBalance wallet.From)], by simp, ?_⟩
    intro e he
    simp only [List.mem_append, List.mem_singleton] at he
    rcases he with h | h
    · exact hrest e h
    · subst h
      exact ⟨rfl, by intro b hb; simp [Event.addressOf] at hb; exact hb.symm⟩
  · generalize W.GenerateKey b.2.1 = r
    generalize randomEth W r.2 = a
    generalize W.Int63n 600001 a.2 = g
    generalize hn : nonceAtWithRetry W wallet.From maxRetries g.2 = n
    have hN1 : ∀ e ∈ n.2.2, e.within wallet.From := by
      intro e he
      rw [← hn] at he
      exact nonceAtLoop_within W wallet.From maxRetries.toNat g.2 e he
    split
    · refine ⟨rest ++ n.2.2 ++ [Event.Sign wallet.From] ++ [Event.print Line.signingFailed],
        by simp, ?_⟩
      intro e he
      simp only [List.mem_append, List.mem_singleton] at he
      rcases he with ((h | h) | h) | h
      · exact hrest e h
      · exact hN1 e h
      · subst h; exact wsign
      · subst h
        exact ⟨rfl, by intro b hb; simp [Event.addressOf] at hb⟩
    · rename_i signedTx _
      generalize retry maxRetries retryDelay (W.SendTransaction signedTx)
        (W.Signer wallet ⟨n.1, r.1, a.1, gasLimit, wrapInt64 (minGasPrice + g.1)⟩ n.2.1).2 = snd
      have hS1 := sendEvent_within signedTx snd.2.2 wallet.From
      split
      · refine ⟨rest ++ n.2.2 ++ [Event.Sign wallet.From] ++ snd.2.2.map (sendEvent signedTx) ++
          [Event.print Line.sendFailed], by simp, ?_⟩
        intro e he
        simp only [List.mem_append, List.mem_singleton] at he
        rcases he with (((h | h) | h) | h) | h
        · exact hrest e h
        · exact hN1 e h
        · subst h; exact wsign
        · exact hS1 e h
        · subst h
          exact ⟨rfl, by intro b hb; simp [Event.addressOf] at hb⟩
      · refine ⟨rest ++ n.2.2 ++ [Event.Sign wallet.From] ++ snd.2.2.map (sendEvent signedTx) ++
          [Event.print (Line.success wallet.From r.1 a.1 signedTx.hash (wrapInt64 (c + 1))),
            Event.wait waitTime], by simp, ?_⟩
        intro e he
        simp only [List.mem_append, List.mem_cons, List.mem_singleton, List.not_mem_nil,
          or_false] at he
        rcases he with (((h | h) | h) | h) | h
        · exact hrest e h
        · exact hN1 e h
        · subst h; exact wsign
        · exact hS1 e h
        · rcases h with h | h
          · subst h
            exact ⟨rfl, by intro b hb; simp [Event.addressOf] at hb; exact hb.symm⟩
          · subst h
            exact ⟨rfl, by intro b hb; simp [Event.addressOf] at hb⟩

theorem segStep_done (t : List Event) :
    ∀ (c : List Event) (d : List (Nat × List Event)),
      t.foldr segStep (c, d) =
        ((t.foldr segStep (c, [])).1, (t.foldr segStep (c, [])).2 ++ d) := by
  induction t with
  | nil => intro c d; rfl
  | cons e t ih =>
    intro c d
    simp only [List.foldr_cons]
    rw [ih c d]
    cases e <;> simp [segStep]

theorem segStep_plain (t : List Event) (h : ∀ e ∈ t, e.isSlot = false) :
    ∀ (c : List Event) (d : List (Nat × List Event)),
      t.foldr segStep (c, d) = (t ++ c, d) := by
  induction t with
  | nil => intro c d; rfl
  | cons e t ih =>
    intro c d
    simp only [List.foldr_cons]
    rw [ih (fun x hx => h x (List.mem_cons_of_mem _ hx)) c d]
    have he := h e (List.mem_cons_self _ _)
    cases e <;> first | rfl | simp [Event.isSlot] at he

theorem slotSegments_snoc (t seg : List Event) (i w : Nat) (h : ∀ e ∈ seg, e.isSlot = false) :
    slotSegments (t ++ Event.checkBalance i w :: seg) = slotSegments t ++ [(i, seg)] := by
  unfold slotSegments
  rw [List.foldr_append, List.foldr_cons, segStep_plain seg h, segStep_done]
  simp [segStep]

/-- The slots of the first `k` iterations: slot `i` begins with the balance
query for the wallet at index `i % len(wallets)` and names no other account. -/
theorem runSlots_segments {σ : Type} (W : World σ) (wallets : List Wallet) (waitTime : Int)
    (s : σ) (hW : 0 < wallets.length) (k : Nat) :
    (slotSegments (runSlots W wallets waitTime k
      ⟨s, [], List.replicate wallets.length 0, false⟩).trace).map Prod.fst = List.range k ∧
    ∀ p ∈ slotSegments (runSlots W wallets waitTime k
      ⟨s, [], List.replicate wallets.length 0, false⟩).trace,
      ∃ w, wallets[p.1 % wallets.length]? = some w ∧
        p.2.head? = some (Event.BalanceAt w.From) ∧
        ∀ e ∈ p.2, ∀ b, e.addressOf = some b → b = w.From := by
  induction k with
  | zero =>
    constructor
    · rfl
    · intro p hp
      simp [runSlots, slotSegments] at hp
  | succ k ih =>
    obtain ⟨hfst, hall⟩ := ih
    obtain ⟨hp, hlen, _, _⟩ := runSlots_general W wallets waitTime s hW k
    rw [runSlots_succ]
    generalize runSlots W wallets waitTime k ⟨s, [], List.replicate wallets.length 0, false⟩ = st
      at hp hlen hfst hall
    obtain ⟨wallet, seg, hw, htr, hseg⟩ := slot_segment W wallets waitTime k st hp hW hlen
    have hplain : ∀ e ∈ Event.BalanceAt wallet.From :: seg, e.isSlot = false := by
      intro e he
      rcases List.mem_cons.mp he with h | h
      · subst h; rfl
      · exact (hseg e h).1
    rw [htr, slotSegments_snoc _ _ _ _ hplain]
    constructor
    · rw [List.map_append, hfst, List.range_succ]
      rfl
    · intro p hp
      rcases List.mem_append.mp hp with h | h
      · exact hall p h
      · rw [List.mem_singleton] at h
        subst h
        refine ⟨wallet, hw, rfl, ?_⟩
        intro e he b hb
        rcases List.mem_cons.mp he with h | h
        · subst h
          simp [Event.addressOf] at hb
          exact hb.symm
        · exact (hseg e h).2 b hb

theorem nonce_no_gasPriceQuery {σ : Type} (W : World σ) (a : Address) (s : σ) :
    (nonceAtWithRetry W a maxRetries s).2.2.countP Event.isGasPriceQuery = 0 := by
  rw [List.countP_eq_zero]
  intro e he
  have h := nonceAtLoop_ofNonce W a maxRetries.toNat s e he
  rcases e with _ | _ | _ | _ | _ | _ | _ | _ | l
  all_goals first
    | (simp [Event.ofNonce] at h; done)
    | simp [Event.isGasPriceQuery]

theorem sampleKey_parses : flakyGasPrice.HexToECDSA sampleKey = some sampleAddress := by
  decide

theorem flaky_first_gasPrice_fails :
    (flakyGasPrice.SuggestGasPrice
      (nonceAtWithRetry flakyGasPrice sampleAddress maxRetries 0).2.1).1 = none := by
  rfl

theorem mainLoop_eq {σ : Type} (W : World σ) (wallets : List Wallet) (N waitTime : Int) (s : σ)
    (k : Nat) (h : (wrapInt64 (N * (wallets.length : Int))).toNat = k) :
    mainLoop W wallets N waitTime s =
      runSlots W wallets waitTime k ⟨s, [], List.replicate wallets.length 0, false⟩ := by
  subst h
  rfl

theorem total_of_inRange (wallets : List Wallet) (N : Int) (hN : 0 ≤ N)
    (hovf : N * (wallets.length : Int) < 2 ^ 63) :
    (wrapInt64 (N * (wallets.length : Int))).toNat = wallets.length * N.toNat := by
  have h0 : 0 ≤ N * (wallets.length : Int) := mul_nonneg hN (Int.natCast_nonneg _)
  rw [wrapInt64_of_inRange ⟨by omega, hovf⟩]
  obtain ⟨n, rfl⟩ := Int.eq_ofNat_of_zero_le hN
  simp only [Int.toNat_ofNat]
  rw [← Nat.cast_mul, Int.toNat_ofNat, Nat.mul_comm]

theorem total_one_wallet (wallet : Wallet) (N : Int) (hN : 0 ≤ N) (hN64 : N < 2 ^ 63) :
    (wrapInt64 (N * (([wallet] : List Wallet).length : Int))).toNat = N.toNat := by
  have h := total_of_inRange [wallet] N hN (by simpa using hN64)
  rw [h]
  simp

theorem reportCounts_eq_marks (t : List Event) :
    reportCounts t = (marks t).filterMap (fun m => match m with
      | Sum.inr c => some c
      | Sum.inl _ => none) := by
  unfold reportCounts marks
  rw [List.filterMap_filterMap]
  apply List.filterMap_congr
  intro e _
  rcases e with _ | _ | _ | _ | _ | _ | _ | _ | l
  case print => cases l <;> rfl
  all_goals rfl

theorem successMarks_counts (w k : Nat) :
    (successMarks w k).filterMap (fun m => match m with
      | Sum.inr c => some c
      | Sum.inl _ => none) = (List.range k).map (fun i => ((i / w : Nat) : Int) + 1) := by
  induction k with
  | zero => rfl
  | succ k ih =>
    rw [successMarks_succ, List.filterMap_append, ih, List.range_succ, List.map_append]
    rfl

/-! ## Claims -/

/-- Claim C1, amended. For every wallet count `W >= 1` and every per-wallet
count `N >= 0` whose product fits the `int` type (`N * W < 2^63`), and for every
environment, the loop attempts exactly `W * N` slots, one balance check per
slot, and slot `i` uses the wallet at index `i % W`: its first step is the
balance query for the address of `wallets[i % W]`, and every later query,
signing call and printed sender of the slot names that address. Every wallet
is selected for exactly `N` slots and the run does not panic. -/
theorem mainLoop_round_robin {σ : Type} (W : World σ) (wallets : List Wallet)
    (N waitTime : Int) (s : σ) (hW : 1 ≤ wallets.length) (hN : 0 ≤ N)
    (hovf : N * (wallets.length : Int) < 2 ^ 63) :
    slotsOf (mainLoop W wallets N waitTime s).trace =
      (List.range (wallets.length * N.toNat)).map (fun i => (i, i % wallets.length)) ∧
    (slotsOf (mainLoop W wallets N waitTime s).trace).length = wallets.length * N.toNat ∧
    (∀ w, w < wallets.length →
      (slotsOf (mainLoop W wallets N waitTime s).trace).countP (fun p => p.2 = w) = N.toNat) ∧
    (mainLoop W wallets N waitTime s).panicked = false ∧
    (slotSegments (mainLoop W wallets N waitTime s).trace).map Prod.fst =
      List.range (wallets.length * N.toNat) ∧
    (∀ p ∈ slotSegments (mainLoop W wallets N waitTime s).trace,
      ∃ w, wallets[p.1 % wallets.length]? = some w ∧
        p.2.head? = some (Event.BalanceAt w.From) ∧
        ∀ e ∈ p.2, ∀ b, e.addressOf = some b → b = w.From) := by
  have hrun := runSlots_general W wallets waitTime s (by omega) (wallets.length * N.toNat)
  have hseg := runSlots_segments W wallets waitTime s (by omega) (wallets.length * N.toNat)
  rw [mainLoop_eq W wallets N waitTime s _ (total_of_inRange wallets N hN hovf)]
  obtain ⟨hp, _, hslots, _⟩ := hrun
  refine ⟨hslots, ?_, ?_, hp, hseg.1, hseg.2⟩
  · rw [hslots]
    simp
  · intro w hw
    rw [hslots, List.countP_map]
    have h := count_mod_eq wallets.length (by omega) w hw (wallets.length * N.toNat)
    unfold Nat.count at h
    have hmod : wallets.length * N.toNat % wallets.length = 0 := Nat.mul_mod_right _ _
    have hdiv : wallets.length * N.toNat / wallets.length = N.toNat :=
      Nat.mul_div_cancel_left _ (by omega)
    rw [hmod, hdiv] at h
    simp only [Nat.not_lt_zero, if_false, Nat.add_zero] at h
    refine Eq.trans ?_ h
    apply List.countP_congr
    intro i _
    simp

/-- Claim C1, witness: two wallets of different accounts (1 and 3), two
transactions each, endpoint down. The four slots begin with the balance
queries for the accounts 1, 3, 1, 3. -/
theorem mainLoop_round_robin_witness :
    slotsOf (mainLoop offline [sampleWallet, secondWallet] 2 1 ()).trace =
      [(0, 0), (1, 1), (2, 0), (3, 1)] ∧
    (slotSegments (mainLoop offline [sampleWallet, secondWallet] 2 1 ()).trace).map
        (fun p => (p.1, p.2.head?)) =
      [(0, some (Event.BalanceAt 1)), (1, some (Event.BalanceAt 3)),
        (2, some (Event.BalanceAt 1)), (3, some (Event.BalanceAt 3))] := by
  have h := mainLoop_round_robin offline [sampleWallet, secondWallet] 2 1 () (by decide)
    (by decide) (by decide)
  refine ⟨h.1, ?_⟩
  have hfst := h.2.2.2.2.1
  have hall := h.2.2.2.2.2
  generalize slotSegments (mainLoop offline [sampleWallet, secondWallet] 2 1 ()).trace = l
    at hfst hall
  have hhead : ∀ p ∈ l, (fun p : Nat × List Event => (p.1, p.2.head?)) p =
      (fun i : Nat => (i, some (Event.BalanceAt (if i % 2 = 0 then 1 else 3)))) p.1 := by
    intro p hp
    obtain ⟨w, hw, hh, _⟩ := hall p hp
    simp only [hh]
    have hlen : ([sampleWallet, secondWallet] : List Wallet).length = 2 := rfl
    rw [hlen] at hw
    rcases Nat.mod_two_eq_zero_or_one p.1 with h0 | h1
    · rw [h0] at hw
      simp at hw
      subst hw
      simp [h0, sampleWallet]
    · rw [h1] at hw
      simp at hw
      subst hw
      simp [h1, secondWallet]
  have hm : l.map (fun a => (fun i : Nat =>
      (i, some (Event.BalanceAt (if i % 2 = 0 then 1 else 3)))) a.1) =
      (l.map Prod.fst).map (fun i : Nat =>
        (i, some (Event.BalanceAt (if i % 2 = 0 then 1 else 3)))) := by
    rw [List.map_map]
    rfl
  rw [List.map_congr_left hhead, hm, hfst]
  rfl

/-- Claim C1, counterexample. With two wallets and `N = 2^62` the product
`numTransactions * len(wallets)` wraps to `-2^63`, the loop condition fails at
once and no slot is attempted, where the claim promises `2 * 2^62` slots. -/
theorem mainLoop_overflow_no_slot :
    (slotsOf (mainLoop offline [sampleWallet, sampleWallet] (2 ^ 62) 1 ()).trace).length = 0 ∧
    (slotsOf (mainLoop offline [sampleWallet, sampleWallet] (2 ^ 62) 1 ()).trace).length
      ≠ 2 * 2 ^ 62 := by
  have ht : (wrapInt64 (2 ^ 62 * (([sampleWallet, sampleWallet] : List Wallet).length : Int))).toNat
      = 0 := by
    norm_num [wrapInt64]
  rw [mainLoop_eq offline [sampleWallet, sampleWallet] (2 ^ 62) 1 () 0 ht]
  constructor
  · rfl
  · norm_num [runSlots, slotsOf]

/-- Claim C2. For `retry(maxAttempts, delay, f)` with `maxAttempts >= 1`: if
`f` fails its first `k < maxAttempts` calls and then succeeds, `retry` returns
`nil`, has invoked `f` exactly `k + 1` times and has slept `delay` once after
each of the `k` failures; if `f` fails on every call, `retry` invokes it exactly
`maxAttempts` times and returns the error of the last invocation. -/
theorem retry_bounded_attempts {σ ε : Type} (maxAttempts delay : Int) (f : σ → Option ε × σ)
    (s : σ) (hmax : 1 ≤ maxAttempts) :
    (∀ k : Nat, (k : Int) < maxAttempts →
      (∀ j, j < k → (resultAt f s j).isSome = true) → resultAt f s k = none →
      (retry maxAttempts delay f s).1 = none ∧
      (retry maxAttempts delay f s).2.1 = stateAfter f s (k + 1) ∧
      (retry maxAttempts delay f s).2.2 = failedAttempts delay k ++ [RetryStep.invoke] ∧
      (retry maxAttempts delay f s).2.2.count RetryStep.invoke = k + 1 ∧
      sleepsOf (retry maxAttempts delay f s).2.2 = List.replicate k delay) ∧
    ((∀ j : Nat, (j : Int) < maxAttempts → (resultAt f s j).isSome = true) →
      (retry maxAttempts delay f s).1 = resultAt f s (maxAttempts.toNat - 1) ∧
      ((retry maxAttempts delay f s).1).isSome = true ∧
      (retry maxAttempts delay f s).2.1 = stateAfter f s maxAttempts.toNat ∧
      (retry maxAttempts delay f s).2.2.count RetryStep.invoke = maxAttempts.toNat) := by
  constructor
  · intro k hk hfail hsucc
    have h := retryFrom_success delay f k maxAttempts.toNat none s (by omega) hfail hsucc
    unfold retry
    rw [h]
    refine ⟨rfl, rfl, rfl, ?_, ?_⟩
    · simp [List.count_append, count_invoke_failedAttempts]
    · have := sleepsOf_failedAttempts delay k
      unfold sleepsOf at this ⊢
      simp [List.filterMap_append, this]
  · intro hfail
    have h := retryFrom_exhausted delay f maxAttempts.toNat none s
      (by intro j hj; exact hfail j (by omega))
    unfold retry
    have hn : maxAttempts.toNat ≠ 0 := by omega
    rw [h, if_neg hn]
    refine ⟨rfl, ?_, rfl, ?_⟩
    · exact hfail (maxAttempts.toNat - 1) (by omega)
    · exact count_invoke_failedAttempts delay _

/-- Claim C2, witness: five attempts on an operation that fails twice, and on
one that always fails. -/
theorem retry_bounded_attempts_witness :
    ((retry 5 retryDelay failsTwice 0).1 = none ∧
      (retry 5 retryDelay failsTwice 0).2.2.count RetryStep.invoke = 3 ∧
      sleepsOf (retry 5 retryDelay failsTwice 0).2.2 = [retryDelay, retryDelay]) ∧
    ((retry 5 retryDelay alwaysFails 0).1 = some 4 ∧
      (retry 5 retryDelay alwaysFails 0).2.2.count RetryStep.invoke = 5) := by
  have h1 := (retry_bounded_attempts 5 retryDelay failsTwice 0 (by decide)).1 2 (by decide)
    (by intro j hj; interval_cases j <;> rfl) rfl
  have h2 := (retry_bounded_attempts 5 retryDelay alwaysFails 0 (by decide)).2
    (by intro j _; rfl)
  exact ⟨⟨h1.1, h1.2.2.2.1, h1.2.2.2.2⟩, ⟨h2.1, h2.2.2.2⟩⟩

/-- Claim C3. For every string `a` (a sequence of bytes, measured by `len`): if
`len(a) >= 10`, `shortenAddress(a)` is the first 6 bytes of `a`, three dots and
the last 4 bytes of `a`, of length 13; if `len(a) < 10`, it is `a`. -/
theorem shortenAddress_spec (a : GoString) :
    (10 ≤ a.length →
      shortenAddress a = some (a.take 6 ++ dots ++ (a.reverse.take 4).reverse) ∧
      (a.take 6 ++ dots ++ (a.reverse.take 4).reverse).length = 13) ∧
    (a.length < 10 → shortenAddress a = some a) := by
  constructor
  · intro h
    constructor
    · unfold shortenAddress
      rw [if_neg (by omega), slice_head a (by omega), slice_last a (by omega)]
    · simp [dots]
      omega
  · intro h
    unfold shortenAddress
    rw [if_pos (by omega)]

/-- Claim C3, witness: a 12-byte string is shortened, a 3-byte string is
returned unchanged. -/
theorem shortenAddress_spec_witness :
    shortenAddress [48, 120, 49, 50, 51, 52, 53, 54, 55, 56, 57, 97] =
      some [48, 120, 49, 50, 51, 52, 46, 46, 46, 55, 56, 57, 97] ∧
    shortenAddress [48, 120, 49] = some [48, 120, 49] :=
  ⟨((shortenAddress_spec [48, 120, 49, 50, 51, 52, 53, 54, 55, 56, 57, 97]).1 (by decide)).1,
    (shortenAddress_spec [48, 120, 49]).2 (by decide)⟩

/-- Claim C4. For `int64` bounds `min <= max` with `max - min + 1` in `int64`,
and every value `r` with `0 <= r < max - min + 1` that `rand.Int63n` returns,
`randomGasPrice(min, max)` is `min + r` and lies in `[min, max]`; a source
that draws `0` gives `min` and one that draws `max - min` gives `max`. -/
theorem randomGasPrice_within_bounds {σ : Type} (src : Int → σ → Int × σ) (min max : Int)
    (s : σ) (hmin : InInt64 min) (hmax : InInt64 max) (hle : min ≤ max)
    (hn : max - min + 1 < 2 ^ 63)
    (h0 : 0 ≤ (src (max - min + 1) s).1) (h1 : (src (max - min + 1) s).1 < max - min + 1) :
    (randomGasPrice src min max s).1 = some (min + (src (max - min + 1) s).1) ∧
    min ≤ min + (src (max - min + 1) s).1 ∧ min + (src (max - min + 1) s).1 ≤ max ∧
    (∃ src0 : Int → Unit → Int × Unit,
      0 ≤ (src0 (max - min + 1) ()).1 ∧ (src0 (max - min + 1) ()).1 < max - min + 1 ∧
      (randomGasPrice src0 min max ()).1 = some min) ∧
    (∃ src1 : Int → Unit → Int × Unit,
      0 ≤ (src1 (max - min + 1) ()).1 ∧ (src1 (max - min + 1) ()).1 < max - min + 1 ∧
      (randomGasPrice src1 min max ()).1 = some max) := by
  have hd : InInt64 (max - min) := by
    unfold InInt64 at *
    omega
  have hn1 : InInt64 (max - min + 1) := by
    unfold InInt64 at *
    omega
  have key : ∀ {τ : Type} (f : Int → τ → Int × τ) (t : τ), 0 ≤ (f (max - min + 1) t).1 →
      (f (max - min + 1) t).1 < max - min + 1 →
      (randomGasPrice f min max t).1 = some (min + (f (max - min + 1) t).1) := by
    intro τ f t g0 g1
    unfold randomGasPrice
    simp only
    rw [wrapInt64_of_inRange hd, wrapInt64_of_inRange hn1, if_neg (by omega)]
    have hs : InInt64 (min + (f (max - min + 1) t).1) := by
      unfold InInt64 at *
      omega
    simp only [wrapInt64_of_inRange hs]
  refine ⟨key src s h0 h1, by omega, by omega,
    ⟨fun _ u => (0, u), le_refl _, by simp only; omega, ?_⟩,
    ⟨fun _ u => (max - min, u), by simp only; omega, by simp only; omega, ?_⟩⟩
  · have h := key (fun _ (u : Unit) => ((0 : Int), u)) () (le_refl _) (by simp only; omega)
    simpa using h
  · have h := key (fun _ (u : Unit) => (max - min, u)) () (by simp only; omega)
      (by simp only; omega)
    rw [h]
    simp

/-- Claim C4, witness: the bounds of `main` and a draw of 123456. -/
theorem randomGasPrice_within_bounds_witness :
    (randomGasPrice (fun _ (u : Unit) => ((123456 : Int), u)) minGasPrice maxGasPrice ()).1 =
      some (minGasPrice + 123456) ∧
    minGasPrice ≤ minGasPrice + 123456 ∧ minGasPrice + 123456 ≤ maxGasPrice :=
  have h := randomGasPrice_within_bounds (fun _ (u : Unit) => ((123456 : Int), u))
    minGasPrice maxGasPrice () (by unfold InInt64 minGasPrice; decide)
    (by unfold InInt64 maxGasPrice; decide) (by decide) (by decide) (by decide) (by decide)
  ⟨h.1, h.2.1, h.2.2.1⟩

/-- Claim C5, the code at the failing input. The float64 of the literal `0.001`
is formatted as `0.001000000000000000`, whose digits times `10^18` are `10^15`,
yet `ethToWei(0.001)` is `10^15 - 1`: the 64-bit mantissa of `big.Float` rounds
the parsed `0.001` down and the product lands one unit in the last place below
`10^15` before truncation. The other value of the claim holds:
`ethToWei(0.000001)` is `10^12`. -/
theorem ethToWei_threshold_loses_one_wei :
    f64_0_001.Valid ∧ |f64_0_001.toRat - 1 / 1000| ≤ (2 : ℚ) ^ (-63 : Int) ∧
    FormatFloat f64_0_001 = ⟨false, 1000000000000000⟩ ∧
    ethToWei f64_0_001 = 999999999999999 ∧ ethToWei f64_0_001 ≠ 10 ^ 15 ∧
    ethToWei f64_0_000001 = 10 ^ 12 := by
  refine ⟨by unfold Float64.Valid f64_0_001; decide, ?_, formatFloat_0_001, ethToWei_0_001, ?_,
    ?_⟩
  · rw [abs_le]
    constructor <;> norm_num [f64_0_001, Float64.toRat, Float64.magnitude]
  · rw [ethToWei_0_001]
    decide
  · rw [ethToWei_eq_weiOfRat _
      (by norm_num [f64_0_000001, Float64.toRat, Float64.magnitude]), weiOfRat_0_000001]
    norm_num

/-- Claim C6. For all finite amounts `0 <= a < b`, `ethToWei(a) <= ethToWei(b)`,
where `ethToWei` is the 18-digit formatting, the parse at 64 bits of mantissa,
the multiplication by `10^18` and the truncation toward zero. -/
theorem ethToWei_monotonic (a b : Float64) (ha : 0 ≤ a.toRat) (hab : a.toRat < b.toRat) :
    ethToWei a ≤ ethToWei b := by
  rw [ethToWei_eq_weiOfRat a ha, ethToWei_eq_weiOfRat b (le_trans ha (le_of_lt hab))]
  exact weiOfRat_mono (le_of_lt hab)

/-- Claim C6, witness: the amounts `0.000001` and `0.001`. -/
theorem ethToWei_monotonic_witness :
    0 ≤ f64_0_000001.toRat ∧ f64_0_000001.toRat < f64_0_001.toRat ∧
    ethToWei f64_0_000001 ≤ ethToWei f64_0_001 :=
  have h0 : 0 ≤ f64_0_000001.toRat := by
    norm_num [f64_0_000001, Float64.toRat, Float64.magnitude]
  have h1 : f64_0_000001.toRat < f64_0_001.toRat := by
    norm_num [f64_0_000001, f64_0_001, Float64.toRat, Float64.magnitude]
  ⟨h0, h1, ethToWei_monotonic f64_0_000001 f64_0_001 h0 h1⟩

/-- Claim C7. For one wallet and `N >= 0` transactions (`N` an `int`), if every
balance that a query returns for the wallet is below `ethToWei(0.001)`, failed
queries falling back to zero, the run prints no success line and exactly `N`
insufficient-balance lines, makes no nonce query, signing or broadcast call in
the loop, and leaves the counter of the wallet at 0. -/
theorem insufficient_balance_run {σ : Type} (W : World σ) (wallet : Wallet)
    (N waitTime : Int) (s : σ) (hN : 0 ≤ N) (hN64 : N < 2 ^ 63)
    (hlow : ∀ s b, (W.BalanceAt wallet.From s).1 = some b → b < ethToWei f64_0_001) :
    (mainLoop W [wallet] N waitTime s).trace.countP Event.isReport = 0 ∧
    (mainLoop W [wallet] N waitTime s).trace.countP Event.isSkipLog = N.toNat ∧
    (mainLoop W [wallet] N waitTime s).trace.countP Event.isNonceQuery = 0 ∧
    (mainLoop W [wallet] N waitTime s).trace.countP Event.isSign = 0 ∧
    (mainLoop W [wallet] N waitTime s).trace.countP Event.isBroadcast = 0 ∧
    (mainLoop W [wallet] N waitTime s).transactionCounts = [0] ∧
    (mainLoop W [wallet] N waitTime s).panicked = false := by
  have hrun := runSlots_insufficient W [wallet] waitTime s (by simp)
    (by
      intro w hw s b
      rw [List.mem_singleton] at hw
      subst hw
      exact hlow s b) N.toNat
  rw [mainLoop_eq W [wallet] N waitTime s _ (total_one_wallet wallet N hN hN64)]
  obtain ⟨hp, hcounts, hskip, hquiet⟩ := hrun
  obtain ⟨h1, h2, h3, h4, _⟩ := countP_quiet hquiet
  exact ⟨h1, hskip, h2, h3, h4, hcounts, hp⟩

/-- Claim C7, witness: one wallet, three transactions, endpoint down. -/
theorem insufficient_balance_run_witness :
    (mainLoop offline [sampleWallet] 3 1 ()).trace.countP Event.isReport = 0 ∧
    (mainLoop offline [sampleWallet] 3 1 ()).trace.countP Event.isSkipLog = 3 :=
  have h := insufficient_balance_run offline sampleWallet 3 1 () (by decide) (by decide)
    (by intro s b hb; simp [offline] at hb)
  ⟨h.1, h.2.1⟩

/-- Claim C8, amended. For every `W >= 1` and `N >= 0` whose product fits the
`int` type (`N * W < 2^63`), if every balance query returns at once a balance at
or above `ethToWei(0.001)` and every signing and first broadcast succeeds, then
whatever the nonce queries return the run prints exactly `W * N` success lines,
ends with `transactionCounts[w] = N` for every wallet, and slot `i`, which is
for wallet `i % W`, prints the count `i / W + 1`: the `j`-th success line of a
wallet prints `j`. -/
theorem all_success_run {σ : Type} (W : World σ) (wallets : List Wallet)
    (N waitTime : Int) (s : σ) (hW : 1 ≤ wallets.length) (hN : 0 ≤ N)
    (hovf : N * (wallets.length : Int) < 2 ^ 63)
    (hbal : ∀ a s, ∃ b, (W.BalanceAt a s).1 = some b ∧ ethToWei f64_0_001 ≤ b)
    (hsign : ∀ w tx s, ((W.Signer w tx s).1).isSome = true)
    (hsend : ∀ tx s, (W.SendTransaction tx s).1 = none) :
    (mainLoop W wallets N waitTime s).trace.countP Event.isReport = wallets.length * N.toNat ∧
    (mainLoop W wallets N waitTime s).transactionCounts = List.replicate wallets.length N ∧
    marks (mainLoop W wallets N waitTime s).trace =
      successMarks wallets.length (wallets.length * N.toNat) ∧
    reportCounts (mainLoop W wallets N waitTime s).trace =
      (List.range (wallets.length * N.toNat)).map
        (fun i => ((i / wallets.length : Nat) : Int) + 1) ∧
    (mainLoop W wallets N waitTime s).panicked = false := by
  have htot := total_of_inRange wallets N hN hovf
  have hlt : wallets.length * N.toNat < 2 ^ 63 := by
    have h0 : 0 ≤ N * (wallets.length : Int) := mul_nonneg hN (Int.natCast_nonneg _)
    have h1 : wrapInt64 (N * (wallets.length : Int)) = N * (wallets.length : Int) :=
      wrapInt64_of_inRange ⟨by omega, hovf⟩
    rw [h1] at htot
    omega
  have hrun := runSlots_success W wallets waitTime s (by omega) hbal hsign hsend
    (wallets.length * N.toNat) hlt
  rw [mainLoop_eq W wallets N waitTime s _ htot]
  obtain ⟨hp, hcounts, hmarks, hrep⟩ := hrun
  refine ⟨hrep, ?_, hmarks, ?_, hp⟩
  swap
  · rw [reportCounts_eq_marks, hmarks, successMarks_counts]
  rw [hcounts]
  have hconst : ∀ w ∈ List.range wallets.length,
      ((Nat.count (fun i => i % wallets.length = w) (wallets.length * N.toNat) : Nat) : Int)
        = N := by
    intro w hw
    rw [List.mem_range] at hw
    rw [count_mod_eq wallets.length (by omega) w hw, Nat.mul_mod_right,
      Nat.mul_div_cancel_left _ (by omega : 0 < wallets.length)]
    simp [hN]
  rw [List.map_congr_left hconst]
  simp

/-- Claim C8, witness: one wallet with `10^16` wei and three transactions give
three success lines with counts 1, 2, 3 and a final counter of 3. -/
theorem all_success_run_witness :
    (mainLoop online [sampleWallet] 3 1 ()).trace.countP Event.isReport = 3 ∧
    (mainLoop online [sampleWallet] 3 1 ()).transactionCounts = [3] ∧
    reportCounts (mainLoop online [sampleWallet] 3 1 ()).trace = [1, 2, 3] := by
  have h := all_success_run online [sampleWallet] 3 1 () (by decide) (by decide) (by decide)
    (by
      intro a s
      refine ⟨10000000000000000, rfl, ?_⟩
      rw [ethToWei_0_001]
      decide)
    (by intro w tx s; rfl) (by intro tx s; rfl)
  refine ⟨h.1, h.2.1, ?_⟩
  rw [h.2.2.2.1]
  decide

/-- Claim C8, counterexample. On an endpoint where every call succeeds at once,
two wallets and `N = 2^62` give no success line and counters `[0, 0]`, because
the product `numTransactions * len(wallets)` wraps to `-2^63`. -/
theorem all_success_overflow_no_report :
    (∀ a s, ∃ b, (online.BalanceAt a s).1 = some b ∧ ethToWei f64_0_001 ≤ b) ∧
    (∀ w tx s, ((online.Signer w tx s).1).isSome = true) ∧
    (∀ tx s, (online.SendTransaction tx s).1 = none) ∧
    (∀ a s, ((online.PendingNonceAt a s).1).isSome = true) ∧
    (mainLoop online [sampleWallet, sampleWallet] (2 ^ 62) 1 ()).trace.countP Event.isReport = 0 ∧
    (mainLoop online [sampleWallet, sampleWallet] (2 ^ 62) 1 ()).transactionCounts = [0, 0] := by
  have ht : (wrapInt64 (2 ^ 62 * (([sampleWallet, sampleWallet] : List Wallet).length : Int))).toNat
      = 0 := by
    norm_num [wrapInt64]
  rw [mainLoop_eq online [sampleWallet, sampleWallet] (2 ^ 62) 1 () 0 ht]
  refine ⟨?_, fun _ _ _ => rfl, fun _ _ => rfl, fun _ _ => rfl, rfl, rfl⟩
  intro a s
  refine ⟨10000000000000000, rfl, ?_⟩
  rw [ethToWei_0_001]
  decide

/-- Claim C9, amended. The loop sleeps the configured inter-transaction
interval, in full, right after each success line and nowhere else: a slot
skipped for insufficient balance, signing failure or broadcast failure goes on
to the next slot without that wait. In every run the success lines and the
waits alternate, each wait lasts `waitTime`, and the number of waits equals the
number of success lines. This holds for the loop on every `waitTime` and for
`main` from line 53 on, where `waitTime` is
`time.Duration(waitTimeSeconds) * time.Second`, that is `waitTimeSeconds`
seconds whenever the product fits `int64`. -/
theorem wait_only_after_success {σ : Type} (W : World σ) (wallets : List Wallet)
    (N waitTime waitTimeSeconds : Int) (s : σ) :
    ((mainLoop W wallets N waitTime s).trace.countP Event.isWait =
        (mainLoop W wallets N waitTime s).trace.countP Event.isReport ∧
      reportWaitSteps (mainLoop W wallets N waitTime s).trace =
        successThenWait waitTime
          ((mainLoop W wallets N waitTime s).trace.countP Event.isReport)) ∧
    ((mainBody W wallets N waitTimeSeconds s).trace.countP Event.isWait =
        (mainBody W wallets N waitTimeSeconds s).trace.countP Event.isReport ∧
      reportWaitSteps (mainBody W wallets N waitTimeSeconds s).trace =
        successThenWait (waitTimeOfSeconds waitTimeSeconds)
          ((mainBody W wallets N waitTimeSeconds s).trace.countP Event.isReport)) ∧
    (InInt64 waitTimeSeconds → InInt64 (waitTimeSeconds * 1000000000) →
      waitTimeOfSeconds waitTimeSeconds = waitTimeSeconds * 1000000000) := by
  have key : ∀ d : Int,
      (mainLoop W wallets N d s).trace.countP Event.isWait =
        (mainLoop W wallets N d s).trace.countP Event.isReport ∧
      reportWaitSteps (mainLoop W wallets N d s).trace =
        successThenWait d ((mainLoop W wallets N d s).trace.countP Event.isReport) := by
    intro d
    rcases Nat.eq_zero_or_pos wallets.length with h0 | hpos
    · have ht : (wrapInt64 (N * (wallets.length : Int))).toNat = 0 := by
        rw [h0]
        norm_num [wrapInt64]
      rw [mainLoop_eq W wallets N d s 0 ht]
      exact ⟨rfl, rfl⟩
    · rw [mainLoop_eq W wallets N d s _ rfl]
      exact (runSlots_general W wallets d s hpos _).2.2.2
  refine ⟨key waitTime, key (waitTimeOfSeconds waitTimeSeconds), ?_⟩
  intro h1 h2
  unfold waitTimeOfSeconds
  rw [wrapInt64_of_inRange h1, wrapInt64_of_inRange h2]

/-- Claim C9, witness: on an endpoint where every call succeeds, one wallet,
two transactions and an interval of 7 seconds give two success lines, each
followed by a wait of 7 seconds. -/
theorem wait_only_after_success_witness :
    reportWaitSteps (mainBody online [sampleWallet] 2 7 ()).trace =
      successThenWait 7000000000
        ((mainBody online [sampleWallet] 2 7 ()).trace.countP Event.isReport) := by
  have h := wait_only_after_success online [sampleWallet] 2 7000000000 7 ()
  have hd := h.2.2 (by unfold InInt64; decide) (by unfold InInt64; decide)
  have h2 := h.2.1.2
  rw [hd] at h2
  exact h2

/-- Claim C9, counterexample. With one wallet, one transaction and the endpoint
down, one slot is attempted and skipped for insufficient balance, and the run
contains no inter-transaction wait. -/
theorem skipped_slot_has_no_wait :
    (slotsOf (mainLoop offline [sampleWallet] 1 1 ()).trace).length = 1 ∧
    (mainLoop offline [sampleWallet] 1 1 ()).trace.countP Event.isWait = 0 ∧
    (mainLoop offline [sampleWallet] 1 1 ()).trace.countP Event.isWait ≠
      (slotsOf (mainLoop offline [sampleWallet] 1 1 ()).trace).length := by
  have ht : (wrapInt64 (1 * (([sampleWallet] : List Wallet).length : Int))).toNat = 1 := by
    norm_num [wrapInt64]
  have hg := runSlots_general offline [sampleWallet] 1 () (by decide) 1
  have hi := runSlots_insufficient offline [sampleWallet] 1 () (by decide)
    (by intro w _ s b hb; simp [offline] at hb) 1
  have hw := (countP_quiet hi.2.2.2).2.2.2.2
  rw [mainLoop_eq offline [sampleWallet] 1 1 () 1 ht, hg.2.2.1, hw]
  refine ⟨rfl, rfl, ?_⟩
  decide

/-- Claim C10, amended. The gas-price suggestion query of `createWallet` does
not go through the bounded retry policy, unlike the nonce query before it: for
a well-formed key it is attempted exactly once, after the steps of
`nonceAtWithRetry`; when that attempt fails identity creation ends the process
with a fatal start-up error, whatever a later attempt would return, and when it
succeeds the identity is created with the suggested price. A malformed key is
fatal before any query. -/
theorem createWallet_gasPrice_single_call {σ : Type} (W : World σ) (key : GoString) (s : σ) :
    (∀ a, W.HexToECDSA key = some a →
      (createWallet W key s).2.2 =
        (nonceAtWithRetry W a maxRetries s).2.2 ++ [Event.SuggestGasPrice] ∧
      (createWallet W key s).2.2.countP Event.isGasPriceQuery = 1 ∧
      ((W.SuggestGasPrice (nonceAtWithRetry W a maxRetries s).2.1).1 = none →
        (createWallet W key s).1 = Startup.fatal) ∧
      (∀ g, (W.SuggestGasPrice (nonceAtWithRetry W a maxRetries s).2.1).1 = some g →
        (createWallet W key s).1 = Startup.ok
          ⟨a, wrapInt64 ((nonceAtWithRetry W a maxRetries s).1 : Int), 0, gasLimit, g⟩)) ∧
    (W.HexToECDSA key = none →
      (createWallet W key s).1 = Startup.fatal ∧ (createWallet W key s).2.2 = []) := by
  constructor
  · intro a hkey
    have htr : (createWallet W key s).2.2 =
        (nonceAtWithRetry W a maxRetries s).2.2 ++ [Event.SuggestGasPrice] := by
      unfold createWallet
      simp only [hkey]
      rcases hq : W.SuggestGasPrice (nonceAtWithRetry W a maxRetries s).2.1 with ⟨r, s1⟩
      cases r <;> rfl
    refine ⟨htr, ?_, ?_, ?_⟩
    · rw [htr, List.countP_append, nonce_no_gasPriceQuery]
      rfl
    · intro hnone
      unfold createWallet
      simp only [hkey]
      rcases hq : W.SuggestGasPrice (nonceAtWithRetry W a maxRetries s).2.1 with ⟨r, s1⟩
      rw [hq] at hnone
      simp only at hnone
      subst hnone
      rfl
    · intro g hsome
      unfold createWallet
      simp only [hkey]
      rcases hq : W.SuggestGasPrice (nonceAtWithRetry W a maxRetries s).2.1 with ⟨r, s1⟩
      rw [hq] at hsome
      simp only at hsome
      subst hsome
      rfl
  · intro hkey
    simp [createWallet, hkey]

/-- Claim C10, witness: the well-formed sample key on an endpoint whose
gas-price suggestion fails on the first call. -/
theorem createWallet_gasPrice_single_call_witness :
    (createWallet flakyGasPrice sampleKey 0).2.2.countP Event.isGasPriceQuery = 1 ∧
    (createWallet flakyGasPrice sampleKey 0).1 = Startup.fatal :=
  have h := (createWallet_gasPrice_single_call flakyGasPrice sampleKey 0).1 sampleAddress
    sampleKey_parses
  ⟨h.2.1, h.2.2.1 flaky_first_gasPrice_fails⟩

/-- Claim C10, counterexample. On an endpoint whose gas-price suggestion fails
on the first call only, `createWallet` on a well-formed key makes its nonce
query and a single `SuggestGasPrice` call and ends the process, although the
next call would have returned a price: identity creation is aborted and the
query is not attempted again. -/
theorem createWallet_gasPrice_not_retried :
    flakyGasPrice.HexToECDSA sampleKey = some sampleAddress ∧
    createWallet flakyGasPrice sampleKey 0 =
      (Startup.fatal, 1, [Event.PendingNonceAt sampleAddress, Event.SuggestGasPrice]) ∧
    (flakyGasPrice.SuggestGasPrice 1).1 = some 1000000 := by
  refine ⟨sampleKey_parses, ?_, rfl⟩
  unfold createWallet
  rw [sampleKey_parses]
  rfl

end UnitsNetwork
